import Mathlib

/-!
# Verification of the `rand_krull` generators (Krull64 / Krull65)

A shallow embedding of the library's LCG arithmetic kernel (`src/lcg.rs`)
and the two generators (`src/krull64.rs`, `src/krull65.rs`) over `ℕ`,
with machine words represented as naturals reduced modulo `2 ^ 64`
(for `u64`) or `2 ^ 128` (for `u128`).  All Rust arithmetic in these
modules is wrapping (the `#[wrappit]` attribute), so every arithmetic
operation is translated with an explicit `% 2 ^ w` reduction.
-/

namespace RandKrull

/-- Wrapping modulus of the `u128` machine integers. -/
def U : ℕ := 2 ^ 128

/-- Wrapping modulus of the `u64` machine integers. -/
def V : ℕ := 2 ^ 64

-- LCG multipliers from lib.rs (Steele & Vigna constants).
def LCG_M128_1 : ℕ := 0xde92a69f6e2f9f25fd0d90f576075fbd
def LCG_M128_2 : ℕ := 0x576bc0a2178fcf7c619f3ebc7363f7f5
def LCG_M128_3 : ℕ := 0x87ea3de194dd2e97074f3d0c2ea63d35
def LCG_M128_4 : ℕ := 0xf48c0745581cf801619cd45257f0ab65
def LCG_M65_1 : ℕ := 0x1df77a66a374e300d
def LCG_M65_2 : ℕ := 0x1d605bbb58c8abbfd
def LCG_M65_3 : ℕ := 0x1d7d8dd3a6a72b43d
def LCG_M65_4 : ℕ := 0x1f20529e418340d05

namespace lcg

/-- The documented LCG iteration `state <- state * m + p` on `u128`
(module comment of `lcg.rs`). -/
def lcgF (m p x : ℕ) : ℕ := (x * m + p) % U

/-- Loop body of `lcg::get_state`, by recursion on the bits of `ordinal`.
The `fuel` argument bounds the number of loop iterations; since `ordinal`
is a `u128` (`ordinal < 2 ^ 128`), 128 iterations always reach
`ordinal = 0`, so `fuel = 128` makes this an exact rendering of the
`while ordinal > 0` loop. -/
def getStateAux : ℕ → ℕ → ℕ → ℕ → ℕ → ℕ
  | 0, _, _, state, _ => state
  | fuel + 1, jump_m, jump_p, state, ordinal =>
    if ordinal = 0 then state
    else
      getStateAux fuel (jump_m * jump_m % U) ((jump_m + 1) * jump_p % U)
        (if ordinal % 2 = 1 then (state * jump_m + jump_p) % U else state)
        (ordinal / 2)

/-- The `lcg::get_state(m, p, origin, iterations)`: state after `iterations`
LCG steps from `origin` (assuming the parameters give a full-period LCG). -/
def get_state (m p origin iterations : ℕ) : ℕ :=
  getStateAux 128 m p origin iterations

/-- Loop body of `lcg::get_iterations`.  The Rust `while address != state`
loop has no intrinsic bound, so the embedding carries explicit fuel and
returns `none` if the loop has not exited after `fuel` iterations;
termination within 128 iterations is proved, not assumed. -/
def getIterationsAux (state : ℕ) : ℕ → ℕ → ℕ → ℕ → ℕ → ℕ → Option ℕ
  | 0, _, _, ordinal, _, address =>
    if address = state then some ordinal else none
  | fuel + 1, jump_m, jump_p, ordinal, bit, address =>
    if address = state then some ordinal
    else
      getIterationsAux state fuel (jump_m * jump_m % U) ((jump_m + 1) * jump_p % U)
        (if bit &&& address ≠ bit &&& state then (ordinal + bit) % U else ordinal)
        (bit * 2 % U)
        (if bit &&& address ≠ bit &&& state then (address * jump_m + jump_p) % U else address)

/-- The `lcg::get_iterations(m, p, origin, state)`: number of LCG steps from
`origin` to `state` (assuming full period).  The loop visits bits 0..127,
which is 128 iterations of fuel. -/
def get_iterations (m p origin state : ℕ) : Option ℕ :=
  getIterationsAux state 128 m p 0 1 origin

end lcg

/-- The `Krull64` state (`krull64.rs`): LCG state split in two `u64` words
plus the `u64` stream number. -/
structure Krull64 where
  lcg0 : ℕ
  lcg1 : ℕ
  stream : ℕ
  deriving DecidableEq

namespace Krull64

/-- The `u64` fields of a `Krull64` are machine words. -/
def Wf (g : Krull64) : Prop := g.lcg0 < V ∧ g.lcg1 < V ∧ g.stream < V

instance (g : Krull64) : Decidable (Wf g) := by unfold Wf; infer_instance

/-- The `krull64.rs` free function `origin_0`: bitwise NOT of the stream on `u64`. -/
def origin_0 (stream : ℕ) : ℕ := stream ^^^ (V - 1)

/-- The `krull64.rs` free function `origin_128`: `origin_0(stream) as u128`. -/
def origin_128 (stream : ℕ) : ℕ := origin_0 stream

/-- The `Krull64::multiplier`: `LCG_M65_1 as u64`. -/
def multiplier : ℕ := LCG_M65_1 % V

/-- The `Krull64::multiplier_128`. -/
def multiplier_128 : ℕ := LCG_M65_1

/-- The `Krull64::increment_128`: `((stream as u128) << 1) | 1`. -/
def increment_128 (g : Krull64) : ℕ := (g.stream <<< 1) ||| 1

/-- The `Krull64::lcg_128`: `lcg0 as u128 | ((lcg1 as u128) << 64)`. -/
def lcg_128 (g : Krull64) : ℕ := g.lcg0 ||| (g.lcg1 <<< 64)

/-- State transition of `Krull64::step` (the `#[wrappit]` hot path):
one widening 64×64→128 multiply plus 64-bit wrapping ops. -/
def stepState (g : Krull64) : Krull64 :=
  let lcg := (g.lcg0 * multiplier + increment_128 g) % U
  { lcg0 := lcg % V
    lcg1 := ((lcg >>> 64) % V + g.lcg1 * multiplier + g.lcg0) % V
    stream := g.stream }

/-- The `Krull64::get`: the output hash of the high LCG word (wrapping on `u64`). -/
def get (g : Krull64) : ℕ :=
  let x := g.lcg1
  let x := (x ^^^ (x >>> 30)) * 0xbf58476d1ce4e5b9 % V
  let x := (x ^^^ (x >>> 27)) * 0x94d049bb133111eb % V
  let x := (x ^^^ (x >>> 31)) * 0xd6e8feb86659fd93 % V
  x ^^^ (x >>> 32)

/-- The `Krull64::step`: advance, then return the current output. -/
def step (g : Krull64) : ℕ × Krull64 := ((stepState g).get, stepState g)

/-- State transition of `Krull64::step_slow` (full 128-bit multiply). -/
def stepSlowState (g : Krull64) : Krull64 :=
  let lcg := (lcg_128 g * multiplier_128 + increment_128 g) % U
  { lcg0 := lcg % V
    lcg1 := (lcg >>> 64) % V
    stream := g.stream }

/-- The `Krull64::step_slow`. -/
def step_slow (g : Krull64) : ℕ × Krull64 := ((stepSlowState g).get, stepSlowState g)

/-- The `Krull64::new()`: stream and position 0. -/
def new : Krull64 := { lcg0 := origin_0 0, lcg1 := 0, stream := 0 }

/-- The `Krull64::from_64(seed)`. -/
def from_64 (seed : ℕ) : Krull64 :=
  { lcg0 := origin_0 seed, lcg1 := 0, stream := seed }

/-- The `Krull64::from_32(seed)`. -/
def from_32 (seed : ℕ) : Krull64 := from_64 seed

/-- The `Krull64::set_position(position)`. -/
def set_position (g : Krull64) (position : ℕ) : Krull64 :=
  let lcg := lcg.get_state multiplier_128 (increment_128 g) (origin_128 g.stream) position
  { lcg0 := lcg % V, lcg1 := (lcg >>> 64) % V, stream := g.stream }

/-- The `Krull64::from_128(seed)`: stream from the XOR of the seed halves,
then position from the low seed word shifted high. -/
def from_128 (seed : ℕ) : Krull64 :=
  set_position (from_64 (((seed >>> 64) ^^^ seed) % V)) ((seed <<< 64) % U)

/-- The `Krull64::jump(steps)` with the unsigned reinterpretation of `steps`
already taken (`steps as u128`). -/
def jumpU (g : Krull64) (steps : ℕ) : Krull64 :=
  let lcg := lcg.get_state multiplier_128 (increment_128 g) (lcg_128 g) steps
  { lcg0 := lcg % V, lcg1 := (lcg >>> 64) % V, stream := g.stream }

/-- The `Krull64::jump(steps: i128)`: the signed argument is reinterpreted as
`u128` by two's complement, i.e. reduced mod `2 ^ 128`. -/
def jump (g : Krull64) (steps : ℤ) : Krull64 :=
  jumpU g (steps % (U : ℤ)).toNat

/-- The `Krull64::position()`.  `none` would mean the `get_iterations` loop
failed to terminate within its 128 levels; this never happens (proved). -/
def position (g : Krull64) : Option ℕ :=
  lcg.get_iterations multiplier_128 (increment_128 g) (origin_128 g.stream) (lcg_128 g)

/-- The `Krull64::reset()`. -/
def reset (g : Krull64) : Krull64 :=
  { lcg0 := origin_0 g.stream, lcg1 := 0, stream := g.stream }

/-- The `Krull64::set_stream(stream)`. -/
def set_stream (_g : Krull64) (stream : ℕ) : Krull64 :=
  reset { lcg0 := 0, lcg1 := 0, stream := stream }

/-- The `RngCore::next_u64` for `Krull64`. -/
def next_u64 (g : Krull64) : ℕ × Krull64 := step g

/-- The `RngCore::next_u32` for `Krull64`: `step() as u32`. -/
def next_u32 (g : Krull64) : ℕ × Krull64 := ((step g).1 % 2 ^ 32, (step g).2)

end Krull64

/-- The `Krull65` state (`krull65.rs`): two 128-bit LCGs split in `u64` words
plus the high word of the stream number. -/
structure Krull65 where
  a0 : ℕ
  a1 : ℕ
  b0 : ℕ
  b1 : ℕ
  c1 : ℕ
  deriving DecidableEq

namespace Krull65

/-- The `u64` fields of a `Krull65` are machine words. -/
def Wf (g : Krull65) : Prop :=
  g.a0 < V ∧ g.a1 < V ∧ g.b0 < V ∧ g.b1 < V ∧ g.c1 < V

instance (g : Krull65) : Decidable (Wf g) := by unfold Wf; infer_instance

/-- The `krull65.rs` free function `origin_a0`. -/
def origin_a0 : ℕ := 0

/-- The `krull65.rs` free function `origin_a_128`. -/
def origin_a_128 : ℕ := origin_a0

/-- The `krull65.rs` free function `origin_b0`. -/
def origin_b0 : ℕ := 1

/-- The `krull65.rs` free function `origin_b_128`. -/
def origin_b_128 : ℕ := origin_b0

/-- The `Krull65::multiplier_a`: `LCG_M65_1 as u64`. -/
def multiplier_a : ℕ := LCG_M65_1 % V

/-- The `Krull65::multiplier_a_128`. -/
def multiplier_a_128 : ℕ := LCG_M65_1

/-- The `Krull65::multiplier_b`: `LCG_M65_4 as u64`. -/
def multiplier_b : ℕ := LCG_M65_4 % V

/-- The `Krull65::multiplier_b_128`. -/
def multiplier_b_128 : ℕ := LCG_M65_4

/-- The `Krull65::increment_a_128`: `((c1 as u128) << 1) ^ LCG_M128_1`. -/
def increment_a_128 (g : Krull65) : ℕ := (g.c1 <<< 1) ^^^ LCG_M128_1

/-- The `Krull65::increment_b_128`: `((c1 as u128) << 1) ^ 1`. -/
def increment_b_128 (g : Krull65) : ℕ := (g.c1 <<< 1) ^^^ 1

/-- The `Krull65::a_128`. -/
def a_128 (g : Krull65) : ℕ := g.a0 ||| (g.a1 <<< 64)

/-- The `Krull65::b_128`. -/
def b_128 (g : Krull65) : ℕ := g.b0 ||| (g.b1 <<< 64)

/-- The `Krull65::set_a_128`. -/
def set_a_128 (g : Krull65) (a : ℕ) : Krull65 :=
  { g with a0 := a % V, a1 := (a >>> 64) % V }

/-- The `Krull65::set_b_128`. -/
def set_b_128 (g : Krull65) (b : ℕ) : Krull65 :=
  { g with b0 := b % V, b1 := (b >>> 64) % V }

/-- The `Krull65::step`: the wrapping hot-path advance of both LCGs. -/
def stepState (g : Krull65) : Krull65 :=
  let a := (g.a0 * multiplier_a + increment_a_128 g) % U
  let a1 := ((a >>> 64) % V + g.a1 * multiplier_a + g.a0) % V
  let a0 := a % V
  let b := (g.b0 * multiplier_b + increment_b_128 g) % U
  let b1 := ((b >>> 64) % V + g.b1 * multiplier_b + g.b0) % V
  let b0 := b % V
  { g with a0 := a0, a1 := a1, b0 := b0, b1 := b1 }

/-- The `Krull65::get`: mix the high words of B and A, then hash (wrapping on `u64`). -/
def get (g : Krull65) : ℕ :=
  let x := g.b1 ^^^ ((g.a1 <<< 32) % V) ^^^ (g.a1 >>> 32)
  let x := (x ^^^ (x >>> 30)) * 0xbf58476d1ce4e5b9 % V
  let x := (x ^^^ (x >>> 27)) * 0x94d049bb133111eb % V
  let x := (x ^^^ (x >>> 31)) * 0xd6e8feb86659fd93 % V
  x ^^^ (x >>> 32)

/-- The `Krull65::next`: step, then output. -/
def next (g : Krull65) : ℕ × Krull65 := ((stepState g).get, stepState g)

/-- The `Krull65::new()`. -/
def new : Krull65 := { a0 := origin_a0, a1 := 0, b0 := origin_b0, b1 := 0, c1 := 0 }

/-- The `Krull65::jump(steps)` with the unsigned reinterpretation of `steps`
already taken (`steps as u128`). -/
def jumpU (g : Krull65) (steps : ℕ) : Krull65 :=
  let g := set_a_128 g (lcg.get_state multiplier_a_128 (increment_a_128 g) (a_128 g) steps)
  set_b_128 g (lcg.get_state multiplier_b_128 (increment_b_128 g) (b_128 g) steps)

/-- The `Krull65::jump(steps: i128)`: signed argument reinterpreted as `u128`. -/
def jump (g : Krull65) (steps : ℤ) : Krull65 :=
  jumpU g (steps % (U : ℤ)).toNat

/-- The `Krull65::position()`: iteration count of LCG A from its origin. -/
def position (g : Krull65) : Option ℕ :=
  lcg.get_iterations multiplier_a_128 (increment_a_128 g) origin_a_128 (a_128 g)

/-- The `u128::wrapping_sub` on naturals already reduced mod `2 ^ 128`. -/
def wsub (a b : ℕ) : ℕ := (a + (U - b % U)) % U

/-- The `Krull65::set_position(position)`: jump by the wrapping difference to
the current position (signed/unsigned casts cancel). -/
def set_position (g : Krull65) (pos : ℕ) : Option Krull65 :=
  (position g).map fun n => jumpU g (wsub pos n)

/-- The `Krull65::reset()`. -/
def reset (g : Krull65) : Krull65 :=
  { g with a0 := origin_a0, a1 := 0, b0 := origin_b0, b1 := 0 }

/-- The `Krull65::stream()`: phase difference of B against A, reassembled with `c1`. -/
def stream (g : Krull65) : Option ℕ := do
  let a_n ← position g
  let b_n ← lcg.get_iterations multiplier_b_128 (increment_b_128 g) origin_b_128 (b_128 g)
  let delta := wsub b_n a_n % V
  pure ((((delta ^^^ g.c1) % V) <<< 64) ||| delta)

/-- The `Krull65::set_stream(stream)`. -/
def set_stream (g : Krull65) (s : ℕ) : Krull65 :=
  let g := reset { g with c1 := (s ^^^ (s >>> 64)) % V }
  set_b_128 g (lcg.get_state multiplier_b_128 (increment_b_128 g) origin_b_128 (s % V))

/-- The `Krull65::from_128(seed)`. -/
def from_128 (seed : ℕ) : Krull65 := set_stream new seed

/-- The `Krull65::from_64(seed)`. -/
def from_64 (seed : ℕ) : Krull65 := set_stream new seed

/-- The `Krull65::from_32(seed)`. -/
def from_32 (seed : ℕ) : Krull65 := set_stream new seed

/-- The `Krull65::from_192(seed0, seed1)`. -/
def from_192 (seed0 seed1 : ℕ) : Option Krull65 :=
  set_position (set_stream new (seed0 ^^^ seed1)) ((seed1 <<< 64) % U)

/-- The `RngCore::next_u64` for `Krull65`. -/
def next_u64 (g : Krull65) : ℕ × Krull65 := next g

/-- The `RngCore::next_u32` for `Krull65`. -/
def next_u32 (g : Krull65) : ℕ × Krull65 := ((next g).1 % 2 ^ 32, (next g).2)

end Krull65

/-! ## Generic word-arithmetic helpers -/

theorem U_pos : 0 < U := by unfold U; positivity

theorem V_pos : 0 < V := by unfold V; positivity

theorem U_eq_V_mul_V : U = V * V := by unfold U V; norm_num

theorem V_dvd_U : V ∣ U := ⟨V, U_eq_V_mul_V⟩

theorem V_lt_U : V < U := by unfold U V; norm_num

/-- Bitwise OR assembles a low word below `2 ^ n` with a shifted high word. -/
theorem lor_shiftLeft_eq_add {lo : ℕ} (hi : ℕ) {n : ℕ} (hlo : lo < 2 ^ n) :
    lo ||| (hi <<< n) = lo + 2 ^ n * hi := by
  rw [Nat.shiftLeft_eq, Nat.lor_comm, Nat.mul_comm hi, ← Nat.mul_add_lt_is_or hlo,
    Nat.add_comm]

/-- Modular reduction by `2 ^ n` commutes with XOR. -/
theorem xor_mod_two_pow (x y n : ℕ) : (x ^^^ y) % 2 ^ n = x % 2 ^ n ^^^ y % 2 ^ n := by
  apply Nat.eq_of_testBit_eq
  intro j
  by_cases h : j < n <;> simp [Nat.testBit_mod_two_pow, h]

/-- The split of a word modulo `V * V` into its low and high `V`-digits. -/
theorem mod_U_split (x : ℕ) : x % U = x % V + V * (x / V % V) := by
  rw [U_eq_V_mul_V, Nat.mod_mul]

/-- Digit-wise equality of two-word assemblies. -/
theorem two_word_eq {a b c d : ℕ} (ha : a < V) (hc : c < V)
    (h : a + V * b = c + V * d) : a = c ∧ b = d := by
  constructor
  · have h1 : (a + V * b) % V = (c + V * d) % V := by rw [h]
    rwa [Nat.add_mul_mod_self_left, Nat.add_mul_mod_self_left,
      Nat.mod_eq_of_lt ha, Nat.mod_eq_of_lt hc] at h1
  · have h1 : (a + V * b) / V = (c + V * d) / V := by rw [h]
    rwa [Nat.add_mul_div_left _ _ V_pos, Nat.add_mul_div_left _ _ V_pos,
      Nat.div_eq_of_lt ha, Nat.div_eq_of_lt hc, Nat.zero_add, Nat.zero_add] at h1

/-- Core identity behind the widening 65-bit-multiplier advance:
low/high recombination after a truncated 128-bit intermediate equals the
full 128-bit result. -/
theorem wide_recombine (A B : ℕ) :
    A % V + V * ((A % U / V % V + B) % V) = (A + V * B) % U := by
  have h1 : (A + V * B) % U = (A + V * B) % V + V * ((A + V * B) / V % V) := mod_U_split _
  rw [h1, Nat.add_mul_mod_self_left, Nat.add_mul_div_left _ _ V_pos]
  have h2 : A % U / V % V = A / V % V := by
    rw [U_eq_V_mul_V, Nat.mod_mul_right_div_self, Nat.mod_mod]
  rw [h2, Nat.mod_add_mod]

/-! ## Semantics of the LCG arithmetic kernel -/

namespace lcg

theorem lcgF_lt (m p x : ℕ) : lcgF m p x < U := Nat.mod_lt _ U_pos

theorem lcgF_mod (a b x : ℕ) : lcgF (a % U) (b % U) x = lcgF a b x :=
  ((Nat.mod_modEq a U).mul_left x).add (Nat.mod_modEq b U)

/-- The squared parameters realise two steps of the base LCG. -/
theorem lcgF_sq (jm jp x : ℕ) :
    lcgF (jm * jm) ((jm + 1) * jp) x = lcgF jm jp (lcgF jm jp x) := by
  unfold lcgF
  have h : ((x * jm + jp) % U * jm + jp) % U = ((x * jm + jp) * jm + jp) % U :=
    ((Nat.mod_modEq (x * jm + jp) U).mul_right jm).add_right jp
  rw [h]
  congr 1
  ring

/-- The `getStateAux` iterates the LCG step `ordinal` times. -/
theorem getStateAux_eq_iterate :
    ∀ (fuel jm jp state ordinal : ℕ), ordinal < 2 ^ fuel →
      getStateAux fuel jm jp state ordinal = (lcgF jm jp)^[ordinal] state := by
  intro fuel
  induction fuel with
  | zero =>
    intro jm jp state ordinal h
    interval_cases ordinal
    rfl
  | succ fuel ih =>
    intro jm jp state ordinal h
    rw [getStateAux]
    by_cases h0 : ordinal = 0
    · simp [h0]
    · rw [if_neg h0]
      have hdiv : ordinal / 2 < 2 ^ fuel := by
        rw [pow_succ] at h
        omega
      rw [ih _ _ _ _ hdiv]
      have hcomp : ∀ x, lcgF (jm * jm % U) ((jm + 1) * jp % U) x
          = lcgF jm jp (lcgF jm jp x) := by
        intro x
        rw [← lcgF_sq]
        calc lcgF (jm * jm % U) ((jm + 1) * jp % U) x
            = lcgF (jm * jm % U % U) ((jm + 1) * jp % U % U) x := by
              rw [Nat.mod_mod, Nat.mod_mod]
          _ = lcgF (jm * jm) ((jm + 1) * jp) x := by rw [lcgF_mod, lcgF_mod]
      have h2 : (lcgF jm jp)^[2] = lcgF jm jp ∘ lcgF jm jp := by
        funext x
        simp [Function.iterate_succ_apply']
      have hfe : lcgF (jm * jm % U) ((jm + 1) * jp % U) = lcgF jm jp ∘ lcgF jm jp :=
        funext hcomp
      rw [hfe, ← h2, ← Function.iterate_mul]
      have hsplit : ordinal = 2 * (ordinal / 2) + ordinal % 2 := by omega
      rcases Nat.mod_two_eq_zero_or_one ordinal with hpar | hpar
      · rw [if_neg (by omega)]
        conv_rhs => rw [hsplit, hpar, Nat.add_zero]
      · rw [if_pos hpar]
        conv_rhs => rw [hsplit, hpar]
        rw [Function.iterate_add_apply, Function.iterate_one]
        rfl

/-- The `lcg::get_state` computes the `n`-fold LCG iterate (`n` a `u128`). -/
theorem get_state_eq_iterate (m p origin n : ℕ) (hn : n < U) :
    get_state m p origin n = (lcgF m p)^[n] origin :=
  getStateAux_eq_iterate 128 m p origin n hn

/-- The doubled jump parameters at each level of both kernel loops. -/
def jparams (m p : ℕ) : ℕ → ℕ × ℕ
  | 0 => (m, p)
  | i + 1 =>
    ((jparams m p i).1 * (jparams m p i).1 % U,
     ((jparams m p i).1 + 1) * (jparams m p i).2 % U)

/-- Level-`i` jump parameters realise `2 ^ i` steps of the base LCG. -/
theorem jparams_sem (m p : ℕ) :
    ∀ i x, lcgF (jparams m p i).1 (jparams m p i).2 x = (lcgF m p)^[2 ^ i] x := by
  intro i
  induction i with
  | zero =>
    intro x
    simp [jparams]
  | succ i ih =>
    intro x
    have h1 : lcgF (jparams m p (i + 1)).1 (jparams m p (i + 1)).2 x
        = lcgF (jparams m p i).1 (jparams m p i).2
            (lcgF (jparams m p i).1 (jparams m p i).2 x) := by
      show lcgF ((jparams m p i).1 * (jparams m p i).1 % U)
          (((jparams m p i).1 + 1) * (jparams m p i).2 % U) x = _
      rw [lcgF_mod, lcgF_sq]
    rw [h1, ih, ih, pow_succ, Nat.mul_comm, Nat.two_mul, Function.iterate_add_apply]

/-- Congruence invariants of the jump parameters: at level `i ≤ 127` the
multiplier is `1` modulo `2 ^ (i + 1)` (and modulo 4), and the increment is
exactly `2 ^ i` modulo `2 ^ (i + 1)`.  This is where `m ≡ 5 (mod 8)` and
`p` odd (the full-period conditions) enter. -/
theorem jparams_inv (m p : ℕ) (hm : m % 8 = 5) (hp : p % 2 = 1) :
    ∀ i, i ≤ 127 →
      (jparams m p i).1 % 2 ^ (i + 1) = 1 ∧ (jparams m p i).1 % 4 = 1 ∧
        (jparams m p i).2 % 2 ^ (i + 1) = 2 ^ i := by
  intro i
  induction i with
  | zero =>
    intro _
    refine ⟨?_, ?_, ?_⟩
    · show m % 2 ^ 1 = 1
      rw [pow_one]
      omega
    · show m % 4 = 1
      omega
    · show p % 2 ^ 1 = 2 ^ 0
      rw [pow_one, pow_zero]
      omega
  | succ i ih =>
    intro hle
    obtain ⟨h1, h4, hp1⟩ := ih (by omega)
    set jm := (jparams m p i).1 with hjm
    set jp := (jparams m p i).2 with hjp
    have hUdvd : (2 : ℕ) ^ (i + 2) ∣ U := pow_dvd_pow 2 (by omega)
    have hjm_eq : jm = 2 ^ (i + 1) * (jm / 2 ^ (i + 1)) + 1 := by
      conv_lhs => rw [← Nat.div_add_mod jm (2 ^ (i + 1))]
      rw [h1]
    have hjm4 : jm = 4 * (jm / 4) + 1 := by
      conv_lhs => rw [← Nat.div_add_mod jm 4]
      rw [h4]
    have hjp_eq : jp = 2 ^ (i + 1) * (jp / 2 ^ (i + 1)) + 2 ^ i := by
      conv_lhs => rw [← Nat.div_add_mod jp (2 ^ (i + 1))]
      rw [hp1]
    have hone : (1 : ℕ) < 2 ^ (i + 2) := by
      calc (1 : ℕ) < 2 ^ 1 := by norm_num
        _ ≤ 2 ^ (i + 2) := Nat.pow_le_pow_right (by norm_num) (by omega)
    refine ⟨?_, ?_, ?_⟩
    · show jm * jm % U % 2 ^ (i + 2) = 1
      rw [Nat.mod_mod_of_dvd _ hUdvd]
      have expand : jm * jm
          = 2 ^ (i + 2) * (2 ^ i * (jm / 2 ^ (i + 1)) * (jm / 2 ^ (i + 1))
              + (jm / 2 ^ (i + 1))) + 1 := by
        conv_lhs => rw [hjm_eq]
        simp only [pow_succ]
        ring
      rw [expand, Nat.mul_add_mod]
      exact Nat.mod_eq_of_lt hone
    · show jm * jm % U % 4 = 1
      have h4dvd : (4 : ℕ) ∣ 2 ^ (i + 2) := ⟨2 ^ i, by simp only [pow_succ]; ring⟩
      rw [Nat.mod_mod_of_dvd _ (dvd_trans h4dvd hUdvd)]
      have expand : jm * jm
          = 4 * (4 * (jm / 4) * (jm / 4) + 2 * (jm / 4)) + 1 := by
        conv_lhs => rw [hjm4]
        ring
      rw [expand, Nat.mul_add_mod]
    · show (jm + 1) * jp % U % 2 ^ (i + 2) = 2 ^ (i + 1)
      rw [Nat.mod_mod_of_dvd _ hUdvd]
      have expand : (jm + 1) * jp
          = 2 ^ (i + 2) * (2 * (jm / 4) * (jp / 2 ^ (i + 1)) + jm / 4
              + jp / 2 ^ (i + 1)) + 2 ^ (i + 1) := by
        conv_lhs => rw [hjm4, hjp_eq]
        simp only [pow_succ]
        ring
      rw [expand, Nat.mul_add_mod]
      exact Nat.mod_eq_of_lt (Nat.pow_lt_pow_right (by norm_num) (by omega))

theorem U_def : U = 2 ^ 128 := rfl

/-- The loop guard `bit & address != bit & state` at `bit = 2 ^ i` compares
bit `i` of the two words. -/
theorem land_two_pow_eq_iff (i a t : ℕ) :
    2 ^ i &&& a = 2 ^ i &&& t ↔ a / 2 ^ i % 2 = t / 2 ^ i % 2 := by
  rw [Nat.two_pow_and, Nat.two_pow_and, Nat.testBit_to_div_mod, Nat.testBit_to_div_mod]
  constructor
  · intro h
    have h2 := Nat.eq_of_mul_eq_mul_left (Nat.two_pow_pos i) h
    by_cases c1 : a / 2 ^ i % 2 = 1 <;> by_cases c2 : t / 2 ^ i % 2 = 1 <;>
      simp [c1, c2] at h2 ⊢ <;> omega
  · intro h
    rw [h]

/-- Splitting a residue modulo `2 ^ (i + 1)` into the residue modulo `2 ^ i`
and bit `i`. -/
theorem mod_two_pow_succ (x i : ℕ) :
    x % 2 ^ (i + 1) = x % 2 ^ i + 2 ^ i * (x / 2 ^ i % 2) := by
  rw [pow_succ, Nat.mod_mul]

/-- Main loop invariant of `lcg::get_iterations`: starting at level `i`
with an address agreeing with the target on the low `i` bits, the loop
terminates within the remaining fuel, the returned ordinal extends the
accumulator by a multiple of `2 ^ i`, and that many LCG steps carry the
address to the target. -/
theorem getIterationsAux_main (m p : ℕ) (hm : m % 8 = 5) (hp : p % 2 = 1)
    (target : ℕ) (ht : target < U) :
    ∀ fuel i ordinal address, i + fuel = 128 → address < U → ordinal < 2 ^ i →
      address % 2 ^ i = target % 2 ^ i →
      ∃ d, getIterationsAux target fuel (jparams m p i).1 (jparams m p i).2
            ordinal (2 ^ i % U) address = some (ordinal + 2 ^ i * d)
          ∧ d < 2 ^ fuel ∧ (lcgF m p)^[2 ^ i * d] address = target := by
  intro fuel
  induction fuel with
  | zero =>
    intro i ordinal address hif ha _ hmod
    have hi : i = 128 := by omega
    subst hi
    have haddr : address = target := by
      rw [← U_def, Nat.mod_eq_of_lt ha, Nat.mod_eq_of_lt ht] at hmod
      exact hmod
    exact ⟨0, by simp [getIterationsAux, haddr], by norm_num,
      by simpa using haddr⟩
  | succ fuel ih =>
    intro i ordinal address hif ha hord hmod
    have hi : i ≤ 127 := by omega
    have hilt : (2 : ℕ) ^ i < U := by
      rw [U_def]
      exact Nat.pow_lt_pow_right (by norm_num) (by omega)
    have hbit : 2 ^ i % U = 2 ^ i := Nat.mod_eq_of_lt hilt
    have hi1le : (2 : ℕ) ^ (i + 1) ≤ U := by
      rw [U_def]
      exact Nat.pow_le_pow_right (by norm_num) (by omega)
    rw [getIterationsAux, hbit]
    by_cases heq : address = target
    · refine ⟨0, ?_, Nat.pos_pow_of_pos _ (by norm_num), by simpa using heq⟩
      rw [if_pos heq, Nat.mul_zero, Nat.add_zero]
    · rw [if_neg heq]
      have hstep1 : (jparams m p i).1 * (jparams m p i).1 % U
          = (jparams m p (i + 1)).1 := rfl
      have hstep2 : ((jparams m p i).1 + 1) * (jparams m p i).2 % U
          = (jparams m p (i + 1)).2 := rfl
      have hbit' : 2 ^ i * 2 % U = 2 ^ (i + 1) % U := by rw [pow_succ]
      obtain ⟨h1, _, hp1⟩ := jparams_inv m p hm hp i hi
      by_cases hc : 2 ^ i &&& address ≠ 2 ^ i &&& target
      · -- bit i differs: the loop advances the address by 2 ^ i steps
        rw [if_pos hc, if_pos hc]
        have hbitsne : address / 2 ^ i % 2 ≠ target / 2 ^ i % 2 := by
          intro h
          exact hc ((land_two_pow_eq_iff i address target).mpr h)
        have hordeq : (ordinal + 2 ^ i) % U = ordinal + 2 ^ i := by
          apply Nat.mod_eq_of_lt
          calc ordinal + 2 ^ i < 2 ^ i + 2 ^ i := by omega
            _ = 2 ^ (i + 1) := by rw [pow_succ]; ring
            _ ≤ U := hi1le
        have haddr' : (address * (jparams m p i).1 + (jparams m p i).2) % U
            = lcgF (jparams m p i).1 (jparams m p i).2 address := rfl
        have hsem : (address * (jparams m p i).1 + (jparams m p i).2) % U
            = (lcgF m p)^[2 ^ i] address := by
          rw [haddr', jparams_sem]
        have hmod' : (address * (jparams m p i).1 + (jparams m p i).2) % U % 2 ^ (i + 1)
            = target % 2 ^ (i + 1) := by
          rw [Nat.mod_mod_of_dvd _ (by rw [U_def]; exact pow_dvd_pow 2 (by omega))]
          have e1 : (jparams m p i).1 ≡ 1 [MOD 2 ^ (i + 1)] := by
            show (jparams m p i).1 % 2 ^ (i + 1) = 1 % 2 ^ (i + 1)
            rw [h1, Nat.mod_eq_of_lt (Nat.one_lt_two_pow_iff.mpr (by omega))]
          have e2 : (jparams m p i).2 ≡ 2 ^ i [MOD 2 ^ (i + 1)] := by
            show (jparams m p i).2 % 2 ^ (i + 1) = 2 ^ i % 2 ^ (i + 1)
            rw [hp1, Nat.mod_eq_of_lt (Nat.pow_lt_pow_right (by norm_num) (by omega))]
          have ecomb : address * (jparams m p i).1 + (jparams m p i).2
              ≡ address + 2 ^ i [MOD 2 ^ (i + 1)] := by
            have := (e1.mul_left address).add e2
            rwa [Nat.mul_one] at this
          rw [ecomb]
          -- arithmetic on the split residues
          rw [mod_two_pow_succ target i, ← Nat.mod_add_mod, mod_two_pow_succ address i]
          have hra : address % 2 ^ i < 2 ^ i := Nat.mod_lt _ (Nat.two_pow_pos i)
          have hba : address / 2 ^ i % 2 < 2 := Nat.mod_lt _ (by norm_num)
          have hbt : target / 2 ^ i % 2 < 2 := Nat.mod_lt _ (by norm_num)
          rw [hmod]
          interval_cases hca : address / 2 ^ i % 2 <;>
            interval_cases hct : target / 2 ^ i % 2
          · omega
          · rw [Nat.mul_zero, Nat.add_zero, Nat.mul_one, pow_succ]
            exact Nat.mod_eq_of_lt (by omega)
          · rw [Nat.mul_zero, Nat.add_zero, Nat.mul_one]
            have : target % 2 ^ i + 2 ^ i + 2 ^ i = target % 2 ^ i + 2 ^ (i + 1) := by
              rw [pow_succ]; ring
            rw [this, Nat.add_mod_right, pow_succ]
            exact Nat.mod_eq_of_lt (by omega)
          · omega
        obtain ⟨d', hres, hd', hit⟩ := ih (i + 1) (ordinal + 2 ^ i)
          ((address * (jparams m p i).1 + (jparams m p i).2) % U)
          (by omega) (Nat.mod_lt _ U_pos)
          (by rw [pow_succ]; omega) hmod'
        rw [hstep1, hstep2] at *
        refine ⟨2 * d' + 1, ?_, ?_, ?_⟩
        · rw [hordeq, hbit', hres]
          congr 1
          rw [pow_succ]
          ring
        · rw [pow_succ]
          omega
        · have harr : 2 ^ i * (2 * d' + 1) = 2 ^ (i + 1) * d' + 2 ^ i := by
            rw [pow_succ]
            ring
          rw [harr, Function.iterate_add_apply, ← hsem]
          exact hit
      · -- bit i agrees: the address is kept
        rw [if_neg hc, if_neg hc]
        push_neg at hc
        have hmod' : address % 2 ^ (i + 1) = target % 2 ^ (i + 1) := by
          rw [mod_two_pow_succ, mod_two_pow_succ, hmod,
            (land_two_pow_eq_iff i address target).mp hc]
        obtain ⟨d', hres, hd', hit⟩ := ih (i + 1) ordinal address
          (by omega) ha (by rw [pow_succ]; omega) hmod'
        rw [hstep1, hstep2] at *
        refine ⟨2 * d', ?_, ?_, ?_⟩
        · rw [hbit', hres]
          congr 1
          rw [pow_succ]
          ring
        · rw [pow_succ]
          omega
        · have harr : 2 ^ i * (2 * d') = 2 ^ (i + 1) * d' := by
            rw [pow_succ]
            ring
          rw [harr]
          exact hit

/-- The `lcg::get_iterations` terminates within its 128 loop levels and returns
an iteration count that actually reaches the target state. -/
theorem get_iterations_correct (m p origin target : ℕ) (hm : m % 8 = 5)
    (hp : p % 2 = 1) (ho : origin < U) (ht : target < U) :
    ∃ n, get_iterations m p origin target = some n ∧ n < U ∧
      (lcgF m p)^[n] origin = target := by
  obtain ⟨d, hres, hd, hit⟩ := getIterationsAux_main m p hm hp target ht 128 0 0 origin
    (by omega) ho (by norm_num) (by simp [Nat.mod_one])
  refine ⟨d, ?_, by rwa [U_def], by simpa using hit⟩
  have h1 : (2 : ℕ) ^ 0 % U = 1 := Nat.mod_eq_of_lt (by rw [U_def]; norm_num)
  rw [get_iterations]
  show getIterationsAux target 128 (jparams m p 0).1 (jparams m p 0).2 0 1 origin = _
  rw [← h1, hres]
  simp

/-- Iterates of the LCG step stay inside the `u128` range. -/
theorem iterate_lt (m p x : ℕ) (hx : x < U) : ∀ n, (lcgF m p)^[n] x < U := by
  intro n
  induction n with
  | zero => simpa using hx
  | succ n ihn =>
    rw [Function.iterate_succ_apply']
    exact lcgF_lt m p _

/-- Distinct iteration counts below `2 ^ 128` reach distinct states: the
orbit of any origin is a single full-period cycle. -/
theorem iterate_inj (m p origin : ℕ) (hm : m % 8 = 5) (hp : p % 2 = 1)
    (ho : origin < U) :
    ∀ n₁ n₂, n₁ < U → n₂ < U →
      (lcgF m p)^[n₁] origin = (lcgF m p)^[n₂] origin → n₁ = n₂ := by
  have hU : 0 < U := U_pos
  let φ : Fin U → Fin U := fun k => ⟨(lcgF m p)^[k.1] origin, iterate_lt m p origin ho k.1⟩
  have hsurj : Function.Surjective φ := by
    intro y
    obtain ⟨n, _, hn, hit⟩ := get_iterations_correct m p origin y.1 hm hp ho y.2
    exact ⟨⟨n, hn⟩, Fin.ext hit⟩
  have hinj : Function.Injective φ := Finite.injective_iff_surjective.mpr hsurj
  intro n₁ n₂ h₁ h₂ heq
  have := @hinj ⟨n₁, h₁⟩ ⟨n₂, h₂⟩ (Fin.ext heq)
  exact congrArg Fin.val this

/-- The LCG step is injective on the `u128` range (the multiplier is odd). -/
theorem lcgF_inj (m p : ℕ) (hm : m % 8 = 5) :
    ∀ x y, x < U → y < U → lcgF m p x = lcgF m p y → x = y := by
  intro x y hx hy h
  have hco : Nat.gcd U m = 1 := by
    have : Nat.Coprime m U := by
      rw [U_def]
      exact Nat.Coprime.pow_right _ (Nat.coprime_two_right.mpr (Nat.odd_iff.mpr (by omega)))
    exact Nat.coprime_comm.mp this
  have hmod : x * m ≡ y * m [MOD U] := by
    have h' : (x * m + p) % U = (y * m + p) % U := h
    have := (Nat.ModEq.add_right_cancel' p (show x * m + p ≡ y * m + p [MOD U] from h'))
    exact this
  have := Nat.ModEq.cancel_right_of_coprime hco hmod
  rw [Nat.ModEq, Nat.mod_eq_of_lt hx, Nat.mod_eq_of_lt hy] at this
  exact this

/-- Leading applications of the LCG step cancel on `u128` values. -/
theorem iterate_cancel (m p : ℕ) (hm : m % 8 = 5) :
    ∀ k x y, x < U → y < U →
      (lcgF m p)^[k] x = (lcgF m p)^[k] y → x = y := by
  intro k
  induction k with
  | zero =>
    intro x y _ _ h
    simpa using h
  | succ k ihk =>
    intro x y hx hy h
    rw [Function.iterate_succ_apply', Function.iterate_succ_apply'] at h
    exact ihk x y hx hy
      (lcgF_inj m p hm _ _ (iterate_lt m p x hx k) (iterate_lt m p y hy k) h)

/-- Full period: `2 ^ 128` LCG steps return to the starting state. -/
theorem iterate_period (m p : ℕ) (hm : m % 8 = 5) (hp : p % 2 = 1) :
    ∀ x, x < U → (lcgF m p)^[U] x = x := by
  have h0 : (0 : ℕ) < U := U_pos
  have horig : (lcgF m p)^[U] 0 = 0 := by
    obtain ⟨k, _, hk, hit⟩ := get_iterations_correct m p 0 ((lcgF m p)^[U] 0) hm hp h0
      (iterate_lt m p 0 h0 U)
    rcases Nat.eq_zero_or_pos k with hk0 | hkpos
    · rw [hk0] at hit
      simpa using hit.symm
    · have heq : (lcgF m p)^[k] ((lcgF m p)^[U - k] 0) = (lcgF m p)^[k] 0 := by
        rw [← Function.iterate_add_apply]
        rw [show k + (U - k) = U by omega]
        exact hit.symm
      have hcancel : (lcgF m p)^[U - k] 0 = 0 :=
        iterate_cancel m p hm k _ 0 (iterate_lt m p 0 h0 _) h0 heq
      have hz : U - k = 0 := iterate_inj m p 0 hm hp h0 (U - k) 0 (by omega) h0
        (by simpa using hcancel)
      omega
  intro x hx
  obtain ⟨n, _, hn, hit⟩ := get_iterations_correct m p 0 x hm hp U_pos hx
  calc (lcgF m p)^[U] x = (lcgF m p)^[U] ((lcgF m p)^[n] 0) := by rw [hit]
    _ = (lcgF m p)^[n] ((lcgF m p)^[U] 0) := by
        rw [← Function.iterate_add_apply, ← Function.iterate_add_apply, Nat.add_comm]
    _ = (lcgF m p)^[n] 0 := by rw [horig]
    _ = x := hit

/-- Whole multiples of the period act as the identity. -/
theorem iterate_mul_period (m p : ℕ) (hm : m % 8 = 5) (hp : p % 2 = 1) :
    ∀ q y, y < U → (lcgF m p)^[U * q] y = y := by
  intro q
  induction q with
  | zero =>
    intro y _
    simp
  | succ q ihq =>
    intro y hy
    rw [show U * (q + 1) = U * q + U by ring, Function.iterate_add_apply,
      iterate_period m p hm hp y hy]
    exact ihq y hy

/-- Iteration counts only matter modulo `2 ^ 128`. -/
theorem iterate_mod (m p : ℕ) (hm : m % 8 = 5) (hp : p % 2 = 1) :
    ∀ k x, x < U → (lcgF m p)^[k] x = (lcgF m p)^[k % U] x := by
  intro k x hx
  conv_lhs => rw [← Nat.div_add_mod k U]
  rw [Function.iterate_add_apply]
  exact iterate_mul_period m p hm hp (k / U) _ (iterate_lt m p x hx _)

/-- Round trip: `get_iterations` recovers the iteration count fed to the
iterate (hence to `get_state`). -/
theorem get_iterations_iterate (m p origin n : ℕ) (hm : m % 8 = 5) (hp : p % 2 = 1)
    (ho : origin < U) (hn : n < U) :
    get_iterations m p origin ((lcgF m p)^[n] origin) = some n := by
  obtain ⟨k, hres, hk, hit⟩ := get_iterations_correct m p origin ((lcgF m p)^[n] origin)
    hm hp ho (iterate_lt m p origin ho n)
  rwa [iterate_inj m p origin hm hp ho k n hk hn hit] at hres

/-- Round trip stated on `get_state` itself. -/
theorem get_iterations_get_state (m p origin n : ℕ) (hm : m % 8 = 5) (hp : p % 2 = 1)
    (ho : origin < U) (hn : n < U) :
    get_iterations m p origin (get_state m p origin n) = some n := by
  rw [get_state_eq_iterate m p origin n hn]
  exact get_iterations_iterate m p origin n hm hp ho hn

/-- Round trip in the other direction: seeking to the count returned by
`get_iterations` reproduces the state. -/
theorem get_state_get_iterations (m p origin target n : ℕ) (hm : m % 8 = 5)
    (hp : p % 2 = 1) (ho : origin < U) (ht : target < U)
    (h : get_iterations m p origin target = some n) :
    n < U ∧ get_state m p origin n = target := by
  obtain ⟨k, hres, hk, hit⟩ := get_iterations_correct m p origin target hm hp ho ht
  rw [h] at hres
  obtain rfl : n = k := Option.some.inj hres
  exact ⟨hk, by rwa [get_state_eq_iterate m p origin _ hk]⟩

/-- The ordinal returned by `get_iterations` is the unique one below
`2 ^ 128` whose `get_state` reaches the target. -/
theorem get_iterations_unique (m p origin target n j : ℕ) (hm : m % 8 = 5)
    (hp : p % 2 = 1) (ho : origin < U) (ht : target < U)
    (h : get_iterations m p origin target = some n)
    (hj : j < U) (hjs : get_state m p origin j = target) : j = n := by
  obtain ⟨hn, hs⟩ := get_state_get_iterations m p origin target n hm hp ho ht h
  rw [get_state_eq_iterate m p origin j hj] at hjs
  rw [get_state_eq_iterate m p origin n hn] at hs
  exact iterate_inj m p origin hm hp ho j n hj hn (hjs.trans hs.symm)

/-- Additivity: advancing the measured state by `k` LCG steps advances the
measured iteration count by `k` modulo `2 ^ 128`. -/
theorem get_iterations_iterate_add (m p origin state n k : ℕ) (hm : m % 8 = 5)
    (hp : p % 2 = 1) (ho : origin < U) (hs : state < U)
    (h : get_iterations m p origin state = some n) :
    get_iterations m p origin ((lcgF m p)^[k] state) = some ((n + k) % U) := by
  obtain ⟨hn, hst⟩ := get_state_get_iterations m p origin state n hm hp ho hs h
  rw [get_state_eq_iterate m p origin n hn] at hst
  have h1 : (lcgF m p)^[k] state = (lcgF m p)^[(n + k) % U] origin := by
    rw [← hst, ← Function.iterate_add_apply, Nat.add_comm k n]
    exact iterate_mod m p hm hp (n + k) origin ho
  rw [h1]
  exact get_iterations_iterate m p origin _ hm hp ho (Nat.mod_lt _ U_pos)

/-- The degenerate loop: measuring the origin itself yields count zero. -/
theorem get_iterations_self (m p x : ℕ) : get_iterations m p x x = some 0 := by
  rw [get_iterations, getIterationsAux]
  simp

end lcg

/-! ## Seed decoding and output collection -/

/-- The `u128::from_le_bytes` / `u64::from_le_bytes` on a little-endian byte list. -/
def from_le_bytes (bytes : List ℕ) : ℕ :=
  bytes.foldr (fun b acc => acc * 256 + b) 0

/-- The `u64::to_le_bytes`: the eight little-endian bytes of a 64-bit word. -/
def to_le_bytes (x : ℕ) : List ℕ :=
  [x % 2 ^ 8, x / 2 ^ 8 % 2 ^ 8, x / 2 ^ 16 % 2 ^ 8, x / 2 ^ 24 % 2 ^ 8,
   x / 2 ^ 32 % 2 ^ 8, x / 2 ^ 40 % 2 ^ 8, x / 2 ^ 48 % 2 ^ 8, x / 2 ^ 56 % 2 ^ 8]

/-- Collect `k` successive outputs of a generator with advance `next`,
together with the final generator state. -/
def iterOutputs {σ : Type} (next : σ → ℕ × σ) : ℕ → σ → List ℕ × σ
  | 0, g => ([], g)
  | k + 1, g => ((next g).1 :: (iterOutputs next k (next g).2).1,
                 (iterOutputs next k (next g).2).2)

/-- The `SeedableRng::from_seed` for `Krull64` (16 little-endian bytes). -/
def Krull64.from_seed (seed : List ℕ) : Krull64 :=
  Krull64.from_128 (from_le_bytes seed)

/-- The `SeedableRng::from_seed` for `Krull65` (24 little-endian bytes:
low 16 to `from_192`'s first argument, high 8 to its second). -/
def Krull65.from_seed (seed : List ℕ) : Option Krull65 :=
  Krull65.from_192 (from_le_bytes (seed.take 16)) (from_le_bytes (seed.drop 16))

/-- The `fill_bytes` loop shared verbatim by both generators: consume the
buffer 8 bytes at a time, writing each output little-endian, truncating
the last chunk.  `fuel = len` suffices since every iteration consumes at
least one byte; the result is the written byte list plus the final state. -/
def fillBytesAux {σ : Type} (next : σ → ℕ × σ) : ℕ → σ → ℕ → List ℕ × σ
  | 0, g, _ => ([], g)
  | fuel + 1, g, len =>
    if len = 0 then ([], g)
    else
      ((to_le_bytes (next g).1).take (min 8 len)
          ++ (fillBytesAux next fuel (next g).2 (len - min 8 len)).1,
        (fillBytesAux next fuel (next g).2 (len - min 8 len)).2)

/-- The `RngCore::fill_bytes` for `Krull64` on a buffer of length `len`. -/
def Krull64.fill_bytes (g : Krull64) (len : ℕ) : List ℕ × Krull64 :=
  fillBytesAux Krull64.step len g len

/-- The `RngCore::try_fill_bytes` for `Krull64`: runs `fill_bytes`, reports `Ok`. -/
def Krull64.try_fill_bytes (g : Krull64) (len : ℕ) :
    (List ℕ × Krull64) × Option Unit :=
  (Krull64.fill_bytes g len, some ())

/-- The `RngCore::fill_bytes` for `Krull65`. -/
def Krull65.fill_bytes (g : Krull65) (len : ℕ) : List ℕ × Krull65 :=
  fillBytesAux Krull65.next len g len

/-- The `RngCore::try_fill_bytes` for `Krull65`. -/
def Krull65.try_fill_bytes (g : Krull65) (len : ℕ) :
    (List ℕ × Krull65) × Option Unit :=
  (Krull65.fill_bytes g len, some ())

/-! ## Krull64: facts about the parameters and the advance -/

theorem V_def : V = 2 ^ 64 := rfl


/-- Word assembly: the OR in `lcg_128`-style accessors is an addition. -/
theorem lor64 (x y : ℕ) (hx : x < V) : x ||| (y <<< 64) = x + V * y :=
  lor_shiftLeft_eq_add y hx

theorem M65_1_mod8 : LCG_M65_1 % 8 = 5 := by norm_num [LCG_M65_1]

theorem M65_4_mod8 : LCG_M65_4 % 8 = 5 := by norm_num [LCG_M65_4]

theorem M65_1_split : Krull64.multiplier_128 = V + Krull64.multiplier := by
  norm_num [Krull64.multiplier_128, Krull64.multiplier, LCG_M65_1, V]

/-- General widening-multiplier advance identity: splitting the 128-bit
multiply of a 65-bit multiplier `2 ^ 64 + m0` into one widening 64×64
multiply plus three 64-bit wrapping operations is exact modulo `2 ^ 128`. -/
theorem widening_mul_advance (m0 inc a0 a1 : ℕ) :
    (a0 * m0 + inc) % U % V
      + V * (((((a0 * m0 + inc) % U) >>> 64) % V + a1 * m0 + a0) % V)
    = ((a0 + V * a1) * (V + m0) + inc) % U := by
  have hshift : ((a0 * m0 + inc) % U) >>> 64 = ((a0 * m0 + inc) % U) / V := by
    rw [Nat.shiftRight_eq_div_pow, V_def]
  rw [hshift]
  have h1 : (a0 * m0 + inc) % U % V = (a0 * m0 + inc) % V :=
    Nat.mod_mod_of_dvd _ V_dvd_U
  rw [h1]
  have hassoc : (a0 * m0 + inc) % U / V % V + a1 * m0 + a0
      = (a0 * m0 + inc) % U / V % V + (a1 * m0 + a0) := by ring
  rw [hassoc, wide_recombine (a0 * m0 + inc) (a1 * m0 + a0)]
  have hexp : (a0 + V * a1) * (V + m0) + inc
      = a0 * m0 + inc + V * (a1 * m0 + a0) + U * a1 := by
    rw [U_eq_V_mul_V]
    ring
  rw [hexp, Nat.add_mul_mod_self_left]

namespace Krull64

theorem increment_odd (g : Krull64) : increment_128 g % 2 = 1 := by
  have h : (increment_128 g).testBit 0 = true := by
    rw [increment_128, Nat.testBit_or]
    simp
  rw [Nat.testBit_zero] at h
  exact of_decide_eq_true h

theorem increment_lt (g : Krull64) (hs : g.stream < V) : increment_128 g < U := by
  rw [increment_128]
  have h1 : g.stream <<< 1 < 2 ^ 128 := by
    rw [Nat.shiftLeft_eq, pow_one]
    rw [V_def] at hs
    have h2 : (2 : ℕ) ^ 64 * 2 ≤ 2 ^ 128 := by norm_num
    calc g.stream * 2 < 2 ^ 64 * 2 := by omega
      _ ≤ 2 ^ 128 := h2
  have h3 : (1 : ℕ) < 2 ^ 128 := by norm_num
  have h4 := Nat.or_lt_two_pow h1 h3
  rw [← lcg.U_def] at h4
  exact h4

theorem origin_lt (s : ℕ) (hs : s < V) : origin_128 s < U := by
  have h : origin_128 s < V := by
    rw [origin_128, origin_0, V_def]
    exact Nat.xor_lt_two_pow (by rw [← V_def]; exact hs) (by rw [← V_def]; omega)
  exact lt_trans h V_lt_U

theorem lcg_128_eq (g : Krull64) (h0 : g.lcg0 < V) :
    lcg_128 g = g.lcg0 + V * g.lcg1 := lor64 _ _ h0

theorem lcg_128_lt (g : Krull64) (hw : g.Wf) : lcg_128 g < U := by
  obtain ⟨h0, h1, _⟩ := hw
  rw [lcg_128_eq g h0, U_eq_V_mul_V]
  calc g.lcg0 + V * g.lcg1 < V + V * g.lcg1 := by omega
    _ = V * (g.lcg1 + 1) := by ring
    _ ≤ V * V := Nat.mul_le_mul_left V (by omega)

/-- The optimized `step` advances the 128-bit LCG state by one full LCG
iteration (the content of the 65-bit-multiplier trick). -/
theorem stepState_lcg (g : Krull64) (hw : g.Wf) :
    lcg_128 (stepState g) = lcg.lcgF multiplier_128 (increment_128 g) (lcg_128 g) := by
  obtain ⟨h0, h1, _⟩ := hw
  have hfield : lcg_128 (stepState g)
      = (g.lcg0 * multiplier + increment_128 g) % U % V
        + V * (((((g.lcg0 * multiplier + increment_128 g) % U) >>> 64) % V
            + g.lcg1 * multiplier + g.lcg0) % V) := by
    apply lor64
    exact Nat.mod_lt _ V_pos
  rw [hfield, widening_mul_advance, lcg.lcgF, lcg_128_eq g h0, M65_1_split]

theorem stepState_stream (g : Krull64) : (stepState g).stream = g.stream := rfl

theorem stepState_wf (g : Krull64) (hw : g.Wf) : (stepState g).Wf :=
  ⟨Nat.mod_lt _ V_pos, Nat.mod_lt _ V_pos, hw.2.2⟩

/-- The `step_slow` is the plain 128-bit LCG iteration. -/
theorem stepSlowState_lcg (g : Krull64) :
    lcg_128 (stepSlowState g) = lcg.lcgF multiplier_128 (increment_128 g) (lcg_128 g) := by
  have hshift : ∀ X : ℕ, (X % U) >>> 64 = (X % U) / V := by
    intro X
    rw [Nat.shiftRight_eq_div_pow, V_def]
  have hfield : lcg_128 (stepSlowState g)
      = (lcg_128 g * multiplier_128 + increment_128 g) % U % V
        + V * ((((lcg_128 g * multiplier_128 + increment_128 g) % U) >>> 64) % V) := by
    apply lor64
    exact Nat.mod_lt _ V_pos
  rw [hfield, hshift]
  have h := mod_U_split ((lcg_128 g * multiplier_128 + increment_128 g) % U)
  rw [Nat.mod_mod] at h
  rw [← h]
  rfl

end Krull64

/-- Splitting a `u128` into two `u64` fields and reassembling is the
identity: this is the low/high store pattern used all over both generators. -/
theorem split_fields_eq (X : ℕ) (hX : X < U) :
    (X % V) ||| (((X >>> 64) % V) <<< 64) = X := by
  rw [lor64 _ _ (Nat.mod_lt _ V_pos), Nat.shiftRight_eq_div_pow, ← V_def]
  calc X % V + V * (X / V % V) = X % U := (mod_U_split X).symm
    _ = X := Nat.mod_eq_of_lt hX

/-- For a pair of unsigned reinterpretations of `d` and `-d`, the two jump
distances cancel modulo `2 ^ 128`. -/
theorem toNat_emod_add_neg (d : ℤ) :
    ((d % (U : ℤ)).toNat + ((-d) % (U : ℤ)).toNat) % U = 0 := by
  have hU0 : (U : ℤ) ≠ 0 := by
    exact_mod_cast Nat.pos_iff_ne_zero.mp U_pos
  have h1 : (((d % (U : ℤ)).toNat + ((-d) % (U : ℤ)).toNat : ℕ) : ℤ)
      = d % (U : ℤ) + (-d) % (U : ℤ) := by
    push_cast [Int.toNat_of_nonneg (Int.emod_nonneg d hU0),
      Int.toNat_of_nonneg (Int.emod_nonneg (-d) hU0)]
    ring
  have h2 : (d % (U : ℤ) + (-d) % (U : ℤ)) % (U : ℤ) = 0 := by
    rw [← Int.add_emod]
    simp
  have h3 : ((((d % (U : ℤ)).toNat + ((-d) % (U : ℤ)).toNat) % U : ℕ) : ℤ) = 0 := by
    push_cast
    rw [Int.toNat_of_nonneg (Int.emod_nonneg d hU0),
      Int.toNat_of_nonneg (Int.emod_nonneg (-d) hU0), h2]
  exact_mod_cast h3

namespace Krull64

/-- The `position()` always terminates on well-formed states and measures the
iteration distance from the origin. -/
theorem position_spec (g : Krull64) (hw : g.Wf) :
    ∃ n, position g = some n ∧ n < U ∧
      (lcg.lcgF multiplier_128 (increment_128 g))^[n] (origin_128 g.stream)
        = lcg_128 g :=
  lcg.get_iterations_correct multiplier_128 (increment_128 g) (origin_128 g.stream)
    (lcg_128 g) M65_1_mod8 (increment_odd g) (origin_lt _ hw.2.2) (lcg_128_lt g hw)

/-- One `step` advances the position by exactly one (mod `2 ^ 128`). -/
theorem position_stepState (g : Krull64) (hw : g.Wf) (n : ℕ)
    (h : position g = some n) :
    position (stepState g) = some ((n + 1) % U) := by
  have hlcg : lcg_128 (stepState g)
      = (lcg.lcgF multiplier_128 (increment_128 g))^[1] (lcg_128 g) := by
    rw [Function.iterate_one]
    exact stepState_lcg g hw
  show lcg.get_iterations multiplier_128 (increment_128 g) (origin_128 g.stream)
      (lcg_128 (stepState g)) = some ((n + 1) % U)
  rw [hlcg]
  exact lcg.get_iterations_iterate_add multiplier_128 (increment_128 g)
    (origin_128 g.stream) (lcg_128 g) n 1 M65_1_mod8 (increment_odd g)
    (origin_lt _ hw.2.2) (lcg_128_lt g hw) h

/-- The `k` repetitions of the advance translate the position by `k`. -/
theorem position_stepState_iterate (g : Krull64) (hw : g.Wf) (n : ℕ)
    (h : position g = some n) (hn : n < U) :
    ∀ k, position (stepState^[k] g) = some ((n + k) % U)
      ∧ (stepState^[k] g).Wf ∧ (stepState^[k] g).stream = g.stream := by
  intro k
  induction k with
  | zero =>
    refine ⟨?_, hw, rfl⟩
    simpa [Nat.mod_eq_of_lt hn] using h
  | succ k ihk =>
    obtain ⟨hpos, hwf, hstr⟩ := ihk
    refine ⟨?_, ?_, ?_⟩
    · rw [Function.iterate_succ_apply',
        position_stepState _ hwf _ hpos, Nat.mod_add_mod, ← Nat.add_assoc]
    · rw [Function.iterate_succ_apply']
      exact stepState_wf _ hwf
    · rw [Function.iterate_succ_apply', stepState_stream, hstr]

/-- The `jump` by an unsigned distance `k < 2 ^ 128` translates the position
by `k` and keeps the stream. -/
theorem position_jumpU (g : Krull64) (hw : g.Wf) (n k : ℕ)
    (h : position g = some n) (hk : k < U) :
    position (jumpU g k) = some ((n + k) % U) ∧ (jumpU g k).stream = g.stream
      ∧ (jumpU g k).Wf := by
  have hX : lcg.get_state multiplier_128 (increment_128 g) (lcg_128 g) k
      = (lcg.lcgF multiplier_128 (increment_128 g))^[k] (lcg_128 g) :=
    lcg.get_state_eq_iterate _ _ _ _ hk
  have hXlt : lcg.get_state multiplier_128 (increment_128 g) (lcg_128 g) k < U := by
    rw [hX]
    exact lcg.iterate_lt _ _ _ (lcg_128_lt g hw) k
  have hlcg : lcg_128 (jumpU g k)
      = (lcg.lcgF multiplier_128 (increment_128 g))^[k] (lcg_128 g) := by
    rw [← hX]
    exact split_fields_eq _ hXlt
  refine ⟨?_, rfl, Nat.mod_lt _ V_pos, Nat.mod_lt _ V_pos, hw.2.2⟩
  show lcg.get_iterations multiplier_128 (increment_128 g) (origin_128 g.stream)
      (lcg_128 (jumpU g k)) = some ((n + k) % U)
  rw [hlcg]
  exact lcg.get_iterations_iterate_add multiplier_128 (increment_128 g)
    (origin_128 g.stream) (lcg_128 g) n k M65_1_mod8 (increment_odd g)
    (origin_lt _ hw.2.2) (lcg_128_lt g hw) h

/-- The `set_position` seeks to the requested position and keeps the stream. -/
theorem position_set_position (g : Krull64) (hw : g.Wf) (pos : ℕ) (hpos : pos < U) :
    position (set_position g pos) = some pos
      ∧ (set_position g pos).stream = g.stream ∧ (set_position g pos).Wf := by
  have hX : lcg.get_state multiplier_128 (increment_128 g) (origin_128 g.stream) pos
      = (lcg.lcgF multiplier_128 (increment_128 g))^[pos] (origin_128 g.stream) :=
    lcg.get_state_eq_iterate _ _ _ _ hpos
  have hXlt : lcg.get_state multiplier_128 (increment_128 g) (origin_128 g.stream) pos < U := by
    rw [hX]
    exact lcg.iterate_lt _ _ _ (origin_lt _ hw.2.2) pos
  have hlcg : lcg_128 (set_position g pos)
      = (lcg.lcgF multiplier_128 (increment_128 g))^[pos] (origin_128 g.stream) := by
    rw [← hX]
    exact split_fields_eq _ hXlt
  refine ⟨?_, rfl, Nat.mod_lt _ V_pos, Nat.mod_lt _ V_pos, hw.2.2⟩
  show lcg.get_iterations multiplier_128 (increment_128 g) (origin_128 g.stream)
      (lcg_128 (set_position g pos)) = some pos
  rw [hlcg]
  exact lcg.get_iterations_iterate multiplier_128 (increment_128 g)
    (origin_128 g.stream) pos M65_1_mod8 (increment_odd g)
    (origin_lt _ hw.2.2) hpos

/-- After `set_stream` (or `reset`, `new`, `from_64`) the LCG sits at the
stream origin, so the position is zero. -/
theorem position_set_stream (g : Krull64) (s : ℕ) :
    position (set_stream g s) = some 0 := by
  show lcg.get_iterations multiplier_128 (increment_128 (set_stream g s))
    (origin_128 s) (lcg_128 (set_stream g s)) = some 0
  have hlcg : lcg_128 (set_stream g s) = origin_128 s := by
    show origin_0 s ||| (0 <<< 64) = origin_128 s
    simp [Nat.shiftLeft_eq, origin_128]
  rw [hlcg]
  exact lcg.get_iterations_self _ _ _

end Krull64

/-- Shifted-left words are even, so XOR with an odd constant is odd. -/
theorem shl1_xor_odd (c k : ℕ) (hk : k % 2 = 1) : ((c <<< 1) ^^^ k) % 2 = 1 := by
  have h : ((c <<< 1) ^^^ k).testBit 0 = true := by
    rw [Nat.testBit_xor, Nat.testBit_shiftLeft]
    simp [hk]
  rw [Nat.testBit_zero] at h
  exact of_decide_eq_true h

theorem shl1_xor_lt (c k : ℕ) (hc : c < V) (hk : k < U) : ((c <<< 1) ^^^ k) < U := by
  have h1 : c <<< 1 < 2 ^ 128 := by
    rw [Nat.shiftLeft_eq, pow_one, V_def] at *
    have h2 : (2 : ℕ) ^ 64 * 2 ≤ 2 ^ 128 := by norm_num
    calc c * 2 < 2 ^ 64 * 2 := by omega
      _ ≤ 2 ^ 128 := h2
  have h3 := Nat.xor_lt_two_pow h1 (by rw [← lcg.U_def]; exact hk)
  rwa [← lcg.U_def] at h3

namespace Krull65

theorem M128_1_lt : LCG_M128_1 < U := by norm_num [LCG_M128_1, U]

theorem M65_4_split : multiplier_b_128 = V + multiplier_b := by
  norm_num [multiplier_b_128, multiplier_b, LCG_M65_4, V]

theorem M65_1a_split : multiplier_a_128 = V + multiplier_a := by
  norm_num [multiplier_a_128, multiplier_a, LCG_M65_1, V]

theorem ma_mod8 : multiplier_a_128 % 8 = 5 := by norm_num [multiplier_a_128, LCG_M65_1]

theorem mb_mod8 : multiplier_b_128 % 8 = 5 := by norm_num [multiplier_b_128, LCG_M65_4]

theorem increment_a_odd (g : Krull65) : increment_a_128 g % 2 = 1 :=
  shl1_xor_odd _ _ (by norm_num [LCG_M128_1])

theorem increment_b_odd (g : Krull65) : increment_b_128 g % 2 = 1 :=
  shl1_xor_odd _ _ (by norm_num)

theorem increment_a_lt (g : Krull65) (hc : g.c1 < V) : increment_a_128 g < U :=
  shl1_xor_lt _ _ hc M128_1_lt

theorem increment_b_lt (g : Krull65) (hc : g.c1 < V) : increment_b_128 g < U :=
  shl1_xor_lt _ _ hc (lt_trans (by norm_num [V]) V_lt_U)

theorem origin_a_lt : origin_a_128 < U := lt_of_lt_of_le (by norm_num [origin_a_128, origin_a0, U]) le_rfl

theorem origin_b_lt : origin_b_128 < U := by norm_num [origin_b_128, origin_b0, U]

theorem a_128_eq (g : Krull65) (h0 : g.a0 < V) : a_128 g = g.a0 + V * g.a1 :=
  lor64 _ _ h0

theorem b_128_eq (g : Krull65) (h0 : g.b0 < V) : b_128 g = g.b0 + V * g.b1 :=
  lor64 _ _ h0

theorem a_128_lt (g : Krull65) (hw : g.Wf) : a_128 g < U := by
  obtain ⟨h0, h1, _, _, _⟩ := hw
  rw [a_128_eq g h0, U_eq_V_mul_V]
  calc g.a0 + V * g.a1 < V + V * g.a1 := by omega
    _ = V * (g.a1 + 1) := by ring
    _ ≤ V * V := Nat.mul_le_mul_left V (by omega)

theorem b_128_lt (g : Krull65) (hw : g.Wf) : b_128 g < U := by
  obtain ⟨_, _, h0, h1, _⟩ := hw
  rw [b_128_eq g h0, U_eq_V_mul_V]
  calc g.b0 + V * g.b1 < V + V * g.b1 := by omega
    _ = V * (g.b1 + 1) := by ring
    _ ≤ V * V := Nat.mul_le_mul_left V (by omega)

theorem set_a_128_a (g : Krull65) (X : ℕ) (hX : X < U) :
    a_128 (set_a_128 g X) = X := split_fields_eq X hX

theorem set_b_128_b (g : Krull65) (X : ℕ) (hX : X < U) :
    b_128 (set_b_128 g X) = X := split_fields_eq X hX

/-- Both LCGs advance by one genuine 128-bit LCG iteration per `step`. -/
theorem stepState_a (g : Krull65) (hw : g.Wf) :
    a_128 (stepState g) = lcg.lcgF multiplier_a_128 (increment_a_128 g) (a_128 g) := by
  obtain ⟨h0, _, _, _, _⟩ := hw
  have hfield : a_128 (stepState g)
      = (g.a0 * multiplier_a + increment_a_128 g) % U % V
        + V * (((((g.a0 * multiplier_a + increment_a_128 g) % U) >>> 64) % V
            + g.a1 * multiplier_a + g.a0) % V) := by
    apply lor64
    exact Nat.mod_lt _ V_pos
  rw [hfield, widening_mul_advance, lcg.lcgF, a_128_eq g h0, M65_1a_split]

theorem stepState_b (g : Krull65) (hw : g.Wf) :
    b_128 (stepState g) = lcg.lcgF multiplier_b_128 (increment_b_128 g) (b_128 g) := by
  obtain ⟨_, _, h0, _, _⟩ := hw
  have hfield : b_128 (stepState g)
      = (g.b0 * multiplier_b + increment_b_128 g) % U % V
        + V * (((((g.b0 * multiplier_b + increment_b_128 g) % U) >>> 64) % V
            + g.b1 * multiplier_b + g.b0) % V) := by
    apply lor64
    exact Nat.mod_lt _ V_pos
  rw [hfield, widening_mul_advance, lcg.lcgF, b_128_eq g h0, M65_4_split]

theorem stepState_c1 (g : Krull65) : (stepState g).c1 = g.c1 := rfl

theorem stepState_wf65 (g : Krull65) (hw : g.Wf) : (stepState g).Wf :=
  ⟨Nat.mod_lt _ V_pos, Nat.mod_lt _ V_pos, Nat.mod_lt _ V_pos, Nat.mod_lt _ V_pos,
    hw.2.2.2.2⟩

theorem jumpU_c1 (g : Krull65) (k : ℕ) : (jumpU g k).c1 = g.c1 := rfl

theorem jumpU_wf (g : Krull65) (hw : g.Wf) (k : ℕ) : (jumpU g k).Wf :=
  ⟨Nat.mod_lt _ V_pos, Nat.mod_lt _ V_pos, Nat.mod_lt _ V_pos, Nat.mod_lt _ V_pos,
    hw.2.2.2.2⟩

theorem jumpU_a (g : Krull65) (hw : g.Wf) (k : ℕ) (hk : k < U) :
    a_128 (jumpU g k) = (lcg.lcgF multiplier_a_128 (increment_a_128 g))^[k] (a_128 g) := by
  have hX : lcg.get_state multiplier_a_128 (increment_a_128 g) (a_128 g) k
      = (lcg.lcgF multiplier_a_128 (increment_a_128 g))^[k] (a_128 g) :=
    lcg.get_state_eq_iterate _ _ _ _ hk
  have hXlt : lcg.get_state multiplier_a_128 (increment_a_128 g) (a_128 g) k < U := by
    rw [hX]
    exact lcg.iterate_lt _ _ _ (a_128_lt g hw) k
  rw [← hX]
  exact split_fields_eq _ hXlt

theorem jumpU_b (g : Krull65) (hw : g.Wf) (k : ℕ) (hk : k < U) :
    b_128 (jumpU g k) = (lcg.lcgF multiplier_b_128 (increment_b_128 g))^[k] (b_128 g) := by
  have hX : lcg.get_state multiplier_b_128 (increment_b_128 g) (b_128 g) k
      = (lcg.lcgF multiplier_b_128 (increment_b_128 g))^[k] (b_128 g) :=
    lcg.get_state_eq_iterate _ _ _ _ hk
  have hXlt : lcg.get_state multiplier_b_128 (increment_b_128 g) (b_128 g) k < U := by
    rw [hX]
    exact lcg.iterate_lt _ _ _ (b_128_lt g hw) k
  rw [← hX]
  exact split_fields_eq _ hXlt

/-- The B-phase measurement used inside `Krull65::stream`. -/
theorem bIter_spec (g : Krull65) (hw : g.Wf) :
    ∃ n, lcg.get_iterations multiplier_b_128 (increment_b_128 g) origin_b_128
        (b_128 g) = some n ∧ n < U ∧
      (lcg.lcgF multiplier_b_128 (increment_b_128 g))^[n] origin_b_128 = b_128 g :=
  lcg.get_iterations_correct _ _ _ _ mb_mod8 (increment_b_odd g) origin_b_lt
    (b_128_lt g hw)

theorem position_spec65 (g : Krull65) (hw : g.Wf) :
    ∃ n, position g = some n ∧ n < U ∧
      (lcg.lcgF multiplier_a_128 (increment_a_128 g))^[n] origin_a_128 = a_128 g :=
  lcg.get_iterations_correct _ _ _ _ ma_mod8 (increment_a_odd g) origin_a_lt
    (a_128_lt g hw)

/-- The `wsub` is subtraction modulo `2 ^ 128`, seen through the integers. -/
theorem wsub_cast (x y : ℕ) :
    ((wsub x y : ℕ) : ℤ) % (U : ℤ) = ((x : ℤ) - y) % (U : ℤ) := by
  rw [wsub]
  have hle : y % U ≤ U := le_of_lt (Nat.mod_lt _ U_pos)
  push_cast [hle]
  rw [Int.emod_emod_of_dvd _ dvd_rfl]
  have h1 : (x : ℤ) + ((U : ℤ) - (y : ℤ) % (U : ℤ))
      = ((x : ℤ) - (y : ℤ) % (U : ℤ)) + (U : ℤ) := by
    ring
  have h2 : ((x : ℤ) - (y : ℤ) % (U : ℤ) + (U : ℤ)) % (U : ℤ)
      = ((x : ℤ) - (y : ℤ) % (U : ℤ) + (U : ℤ) * 1) % (U : ℤ) := by
    rw [Int.mul_one]
  rw [h1, h2, Int.add_mul_emod_self_left]
  conv_rhs => rw [Int.sub_emod]
  conv_lhs => rw [Int.sub_emod, Int.emod_emod_of_dvd _ dvd_rfl]

theorem wsub_lt (x y : ℕ) : wsub x y < U := Nat.mod_lt _ U_pos

/-- The `wrapping_sub` only depends on the arguments modulo `2 ^ 128`, and a
common shift of both arguments cancels. -/
theorem wsub_shift (a b k : ℕ) :
    wsub ((b + k) % U) ((a + k) % U) = wsub b a := by
  have h1 : ((wsub ((b + k) % U) ((a + k) % U) : ℕ) : ℤ) % (U : ℤ)
      = ((wsub b a : ℕ) : ℤ) % (U : ℤ) := by
    rw [wsub_cast, wsub_cast]
    push_cast
    rw [← Int.sub_emod]
    congr 1
    ring
  have h2 : ((wsub ((b + k) % U) ((a + k) % U) : ℕ) : ℤ)
      = ((wsub b a : ℕ) : ℤ) := by
    rw [Int.emod_eq_of_lt (by positivity) (by exact_mod_cast wsub_lt _ _),
      Int.emod_eq_of_lt (by positivity) (by exact_mod_cast wsub_lt _ _)] at h1
    exact h1
  exact_mod_cast h2

/-- Any state whose A-LCG moved by `k` steps (with the same `c1`) reads a
position shifted by `k`. -/
theorem position_advance (g g' : Krull65) (hw : g.Wf) (hc : g'.c1 = g.c1)
    (k n : ℕ)
    (hA : a_128 g' = (lcg.lcgF multiplier_a_128 (increment_a_128 g))^[k] (a_128 g))
    (h : position g = some n) :
    position g' = some ((n + k) % U) := by
  have hinc : increment_a_128 g' = increment_a_128 g := by
    rw [increment_a_128, increment_a_128, hc]
  show lcg.get_iterations multiplier_a_128 (increment_a_128 g') origin_a_128
      (a_128 g') = some ((n + k) % U)
  rw [hinc, hA]
  exact lcg.get_iterations_iterate_add multiplier_a_128 (increment_a_128 g)
    origin_a_128 (a_128 g) n k ma_mod8 (increment_a_odd g) origin_a_lt
    (a_128_lt g hw) h

/-- The same for the B-LCG phase measurement used inside `stream()`. -/
theorem bIter_advance (g g' : Krull65) (hw : g.Wf) (hc : g'.c1 = g.c1)
    (k n : ℕ)
    (hB : b_128 g' = (lcg.lcgF multiplier_b_128 (increment_b_128 g))^[k] (b_128 g))
    (h : lcg.get_iterations multiplier_b_128 (increment_b_128 g) origin_b_128
      (b_128 g) = some n) :
    lcg.get_iterations multiplier_b_128 (increment_b_128 g') origin_b_128
      (b_128 g') = some ((n + k) % U) := by
  have hinc : increment_b_128 g' = increment_b_128 g := by
    rw [increment_b_128, increment_b_128, hc]
  rw [hinc, hB]
  exact lcg.get_iterations_iterate_add multiplier_b_128 (increment_b_128 g)
    origin_b_128 (b_128 g) n k mb_mod8 (increment_b_odd g) origin_b_lt
    (b_128_lt g hw) h

/-- Advancing both LCGs in lockstep (with `c1` unchanged) preserves the
read-back stream: the phase difference `B − A` is invariant. -/
theorem stream_advance (g g' : Krull65) (hw : g.Wf) (hc : g'.c1 = g.c1) (k : ℕ)
    (hA : a_128 g' = (lcg.lcgF multiplier_a_128 (increment_a_128 g))^[k] (a_128 g))
    (hB : b_128 g' = (lcg.lcgF multiplier_b_128 (increment_b_128 g))^[k] (b_128 g)) :
    stream g' = stream g := by
  obtain ⟨a_n, hpos, _, _⟩ := position_spec65 g hw
  obtain ⟨b_n, hbit, _, _⟩ := bIter_spec g hw
  have hpos' := position_advance g g' hw hc k a_n hA hpos
  have hbit' := bIter_advance g g' hw hc k b_n hB hbit
  simp only [stream]
  rw [hpos, hbit, hpos', hbit']
  simp only [Option.bind_eq_bind, Option.some_bind]
  rw [wsub_shift a_n b_n k, hc]

/-- The `set_stream` always yields a well-formed state. -/
theorem set_stream_wf (g : Krull65) (s : ℕ) : (set_stream g s).Wf :=
  ⟨show (0 : ℕ) < V from V_pos, show (0 : ℕ) < V from V_pos,
    Nat.mod_lt _ V_pos, Nat.mod_lt _ V_pos, Nat.mod_lt _ V_pos⟩

theorem set_stream_a (g : Krull65) (s : ℕ) : a_128 (set_stream g s) = origin_a_128 := by
  show (0 : ℕ) ||| (0 <<< 64) = 0
  simp [Nat.shiftLeft_eq]

/-- The `set_stream` puts the generator at position 0 of the requested stream. -/
theorem position_set_stream65 (g : Krull65) (s : ℕ) :
    position (set_stream g s) = some 0 := by
  show lcg.get_iterations multiplier_a_128 (increment_a_128 (set_stream g s))
      origin_a_128 (a_128 (set_stream g s)) = some 0
  rw [set_stream_a]
  exact lcg.get_iterations_self _ _ _

/-- The `set_stream` stores exactly the requested 128-bit stream identifier:
`c1` holds `hi XOR lo` and B is re-seated `lo` steps from its origin, so
`stream()` reassembles `s`. -/
theorem stream_set_stream (g : Krull65) (s : ℕ) (hs : s < U) :
    stream (set_stream g s) = some s := by
  have hsv : s % V < U := lt_trans (Nat.mod_lt _ V_pos) V_lt_U
  have hbX : lcg.get_state multiplier_b_128 (increment_b_128 (set_stream g s))
        origin_b_128 (s % V)
      = (lcg.lcgF multiplier_b_128 (increment_b_128 (set_stream g s)))^[s % V]
          origin_b_128 :=
    lcg.get_state_eq_iterate _ _ _ _ hsv
  have hbXlt : lcg.get_state multiplier_b_128 (increment_b_128 (set_stream g s))
      origin_b_128 (s % V) < U := by
    rw [hbX]
    exact lcg.iterate_lt _ _ _ origin_b_lt _
  have hb : b_128 (set_stream g s)
      = (lcg.lcgF multiplier_b_128 (increment_b_128 (set_stream g s)))^[s % V]
          origin_b_128 := by
    rw [← hbX]
    exact split_fields_eq _ hbXlt
  have hbit : lcg.get_iterations multiplier_b_128 (increment_b_128 (set_stream g s))
      origin_b_128 (b_128 (set_stream g s)) = some (s % V) := by
    rw [hb]
    exact lcg.get_iterations_iterate _ _ _ _ mb_mod8 (increment_b_odd _)
      origin_b_lt hsv
  have hpos := position_set_stream65 g s
  simp only [stream]
  rw [hpos, hbit]
  simp only [Option.bind_eq_bind, Option.some_bind]
  have hwsub : wsub (s % V) 0 = s % V := by
    rw [wsub, Nat.zero_mod, Nat.sub_zero, Nat.add_mod_right,
      Nat.mod_eq_of_lt (lt_trans (Nat.mod_lt _ V_pos) V_lt_U)]
  rw [hwsub, Nat.mod_mod]
  have hc1 : (set_stream g s).c1 = (s ^^^ (s >>> 64)) % V := rfl
  rw [hc1]
  have hxor : s % V ^^^ (s ^^^ s >>> 64) % V = (s >>> 64) % V := by
    rw [V_def, ← xor_mod_two_pow, ← Nat.xor_assoc, Nat.xor_self, Nat.zero_xor]
  rw [hxor, Nat.mod_mod, Nat.lor_comm]
  rw [split_fields_eq s hs]
  rfl

/-- One `step` moves both LCGs by one iteration, so the position advances
by one and the stream is untouched. -/
theorem position_stepState65 (g : Krull65) (hw : g.Wf) (n : ℕ)
    (h : position g = some n) :
    position (stepState g) = some ((n + 1) % U) := by
  apply position_advance g (stepState g) hw (stepState_c1 g) 1 n _ h
  rw [Function.iterate_one]
  exact stepState_a g hw

theorem stream_stepState (g : Krull65) (hw : g.Wf) :
    stream (stepState g) = stream g := by
  apply stream_advance g (stepState g) hw (stepState_c1 g) 1
  · rw [Function.iterate_one]
    exact stepState_a g hw
  · rw [Function.iterate_one]
    exact stepState_b g hw

/-- Iterated advance: `k` outputs shift the position by `k`, and never
touch the stream coordinate. -/
theorem position_stepState_iterate65 (g : Krull65) (hw : g.Wf) (n : ℕ)
    (h : position g = some n) (hn : n < U) :
    ∀ k, position (stepState^[k] g) = some ((n + k) % U)
      ∧ (stepState^[k] g).Wf ∧ stream (stepState^[k] g) = stream g := by
  intro k
  induction k with
  | zero =>
    refine ⟨?_, hw, rfl⟩
    simpa [Nat.mod_eq_of_lt hn] using h
  | succ k ihk =>
    obtain ⟨hpos, hwf, hstr⟩ := ihk
    refine ⟨?_, ?_, ?_⟩
    · rw [Function.iterate_succ_apply',
        position_stepState65 _ hwf _ hpos, Nat.mod_add_mod, ← Nat.add_assoc]
    · rw [Function.iterate_succ_apply']
      exact stepState_wf65 _ hwf
    · rw [Function.iterate_succ_apply', stream_stepState _ hwf, hstr]

/-- The `jump` shifts the position by the (unsigned) distance and keeps the
stream. -/
theorem position_jumpU65 (g : Krull65) (hw : g.Wf) (n k : ℕ)
    (h : position g = some n) (hk : k < U) :
    position (jumpU g k) = some ((n + k) % U) :=
  position_advance g (jumpU g k) hw (jumpU_c1 g k) k n (jumpU_a g hw k hk) h

theorem stream_jumpU (g : Krull65) (hw : g.Wf) (k : ℕ) (hk : k < U) :
    stream (jumpU g k) = stream g :=
  stream_advance g (jumpU g k) hw (jumpU_c1 g k) k (jumpU_a g hw k hk)
    (jumpU_b g hw k hk)

/-- Adding back the measured position cancels inside `set_position`. -/
theorem wsub_add_cancel (n pos : ℕ) (hpos : pos < U) :
    (n + wsub pos n) % U = pos := by
  have h1 : (((n + wsub pos n) % U : ℕ) : ℤ) = (pos : ℤ) := by
    push_cast
    rw [Int.add_emod, wsub_cast pos n, ← Int.add_emod]
    have h2 : (n : ℤ) + ((pos : ℤ) - n) = (pos : ℤ) := by ring
    rw [h2, Int.emod_eq_of_lt (by positivity) (by exact_mod_cast hpos)]
  exact_mod_cast h1

/-- The `set_position` on a well-formed state succeeds, seeks to the requested
position and keeps the stream. -/
theorem set_position_spec65 (g : Krull65) (hw : g.Wf) (pos : ℕ) (hpos : pos < U) :
    ∃ g', set_position g pos = some g' ∧ position g' = some pos
      ∧ stream g' = stream g ∧ g'.Wf ∧ g'.c1 = g.c1 := by
  obtain ⟨n, hn, hnU, _⟩ := position_spec65 g hw
  refine ⟨jumpU g (wsub pos n), ?_, ?_, ?_, jumpU_wf g hw _, jumpU_c1 g _⟩
  · rw [set_position, hn]
    rfl
  · rw [position_jumpU65 g hw n (wsub pos n) hn (wsub_lt _ _), wsub_add_cancel n pos hpos]
  · exact stream_jumpU g hw _ (wsub_lt _ _)

end Krull65

/-! ## The `fill_bytes` loop -/

theorem to_le_bytes_length (x : ℕ) : (to_le_bytes x).length = 8 := rfl

theorem iterOutputs_length {σ : Type} (next : σ → ℕ × σ) :
    ∀ k g, ((iterOutputs next k g).1).length = k := by
  intro k
  induction k with
  | zero => intro g; rfl
  | succ k ih =>
    intro g
    show ((next g).1 :: (iterOutputs next k (next g).2).1).length = k + 1
    rw [List.length_cons, ih]

theorem flatMap_to_le_bytes_length :
    ∀ l : List ℕ, (l.flatMap to_le_bytes).length = 8 * l.length := by
  intro l
  induction l with
  | nil => rfl
  | cons x xs ih =>
    rw [List.flatMap_cons, List.length_append, ih, to_le_bytes_length,
      List.length_cons]
    ring

/-- Specification of the `fill_bytes` loop: it produces the first `len`
bytes of the little-endian serialization of `⌈len / 8⌉` consecutive
outputs, and leaves the generator advanced by those `⌈len / 8⌉` draws. -/
theorem fillBytesAux_spec {σ : Type} (next : σ → ℕ × σ) :
    ∀ fuel len g, len ≤ fuel →
      fillBytesAux next fuel g len
        = (((iterOutputs next ((len + 7) / 8) g).1.flatMap to_le_bytes).take len,
           (iterOutputs next ((len + 7) / 8) g).2) := by
  intro fuel
  induction fuel with
  | zero =>
    intro len g hlen
    have h0 : len = 0 := by omega
    subst h0
    rfl
  | succ fuel ih =>
    intro len g hlen
    by_cases h0 : len = 0
    · subst h0
      rw [fillBytesAux]
      rfl
    · rw [fillBytesAux, if_neg h0]
      have hceil : (len + 7) / 8 = (len - min 8 len + 7) / 8 + 1 := by omega
      have hrec := ih (len - min 8 len) (next g).2 (by omega)
      rw [hrec, hceil]
      have hiter : iterOutputs next ((len - min 8 len + 7) / 8 + 1) g
          = ((next g).1 :: (iterOutputs next ((len - min 8 len + 7) / 8) (next g).2).1,
             (iterOutputs next ((len - min 8 len + 7) / 8) (next g).2).2) := rfl
      rw [hiter]
      refine Prod.ext ?_ rfl
      show (to_le_bytes (next g).1).take (min 8 len) ++ _ = _
      rw [List.flatMap_cons, List.take_append_eq_append_take,
        to_le_bytes_length]
      by_cases h8 : 8 ≤ len
      · rw [min_eq_left h8,
          List.take_of_length_le (le_trans (le_of_eq (to_le_bytes_length _)) h8),
          List.take_of_length_le (le_of_eq (to_le_bytes_length _))]
      · have hsub : len - min 8 len = 0 := by omega
        have hmin : min 8 len = len := by omega
        have hlen8 : len - 8 = 0 := by omega
        rw [hsub, hmin, hlen8]

/-! ## Glue lemmas for the claims -/

theorem Krull64.ext' (g h : Krull64) (h0 : g.lcg0 = h.lcg0)
    (h1 : g.lcg1 = h.lcg1) (h2 : g.stream = h.stream) : g = h := by
  cases g
  cases h
  simp only [Krull64.mk.injEq]
  exact ⟨h0, h1, h2⟩

/-- The optimized and the plain 128-bit advance produce the very same
state and output. -/
theorem Krull64.step_eq_step_slow (g : Krull64) (hw : g.Wf) :
    Krull64.step g = Krull64.step_slow g := by
  have hstate : stepState g = stepSlowState g := by
    have hl : lcg_128 (stepState g) = lcg_128 (stepSlowState g) := by
      rw [stepState_lcg g hw, stepSlowState_lcg g]
    have ha0 : (stepState g).lcg0 < V := Nat.mod_lt _ V_pos
    have hb0 : (stepSlowState g).lcg0 < V := Nat.mod_lt _ V_pos
    rw [lcg_128_eq _ ha0, lcg_128_eq _ hb0] at hl
    obtain ⟨e0, e1⟩ := two_word_eq ha0 hb0 hl
    exact ext' _ _ e0 e1 rfl
  rw [Krull64.step, Krull64.step_slow, hstate]

theorem Krull64.origin_0_lt (s : ℕ) (hs : s < V) : origin_0 s < V := by
  rw [origin_0, V_def]
  exact Nat.xor_lt_two_pow (by rw [← V_def]; exact hs) (by rw [← V_def]; omega)

theorem Krull64.from_64_wf (seed : ℕ) (hs : seed < V) : (from_64 seed).Wf :=
  ⟨origin_0_lt seed hs, V_pos, hs⟩

/-- The stream number stored by `from_128` is the XOR of the seed halves. -/
theorem Krull64.from_128_stream (s : ℕ) (hs : s < U) :
    (from_128 s).stream = (s >>> 64) ^^^ (s % V) := by
  have h1 : (from_128 s).stream = ((s >>> 64) ^^^ s) % V := rfl
  have h2 : s >>> 64 < V := by
    rw [Nat.shiftRight_eq_div_pow, ← V_def]
    rw [U_eq_V_mul_V] at hs
    exact Nat.div_lt_of_lt_mul (by rwa [Nat.mul_comm])
  rw [h1, V_def, xor_mod_two_pow, ← V_def, Nat.mod_eq_of_lt h2]

theorem shl64_mod (s : ℕ) : (s <<< 64) % U = (s % V) * V := by
  rw [Nat.shiftLeft_eq, U_eq_V_mul_V]
  have hV : (2 : ℕ) ^ 64 = V := rfl
  rw [hV, Nat.mul_mod_mul_right]

/-- The `c1` is never touched by the output loop. -/
theorem iterOutputs_c1 :
    ∀ k (g : Krull65), ((iterOutputs Krull65.next k g).2).c1 = g.c1 := by
  intro k
  induction k with
  | zero => intro g; rfl
  | succ k ih =>
    intro g
    show ((iterOutputs Krull65.next k (Krull65.next g).2).2).c1 = g.c1
    rw [ih]
    rfl

theorem Krull65.set_position_c1 (g : Krull65) (pos : ℕ) (g' : Krull65)
    (h : Krull65.set_position g pos = some g') : g'.c1 = g.c1 := by
  unfold Krull65.set_position at h
  rcases hp : Krull65.position g with _ | n
  · rw [hp] at h
    simp at h
  · rw [hp] at h
    simp only [Option.map_some'] at h
    rw [← Option.some.inj h]
    rfl

/-! ## The claims -/

/-- C1: Krull64 constructed with stream 0 and position 0 (via `from_64(0)`)
returns on its first 16 calls to `next_u64` exactly the sixteen reference
words, in order; and `from_seed` on 16 zero bytes yields
`0x57c1b6c1df5ed4d2` as its first output. -/
theorem claim_C1 :
    (iterOutputs Krull64.next_u64 16 (Krull64.from_64 0)).1
      = [0x57c1b6c1df5ed4d2, 0x1efdba83398cf412, 0xa02d8dfda06ac9ce,
         0xf6e3f32be5e81841, 0xc2a690083e597e0d, 0x3b1b2ed3fa6c15aa,
         0x241c691340a479b2, 0x88c24c8d79bb67c1, 0x09f213c4fc2b61dc,
         0xa4b6ad95c713c951, 0xa43904ae3341edf7, 0xee2dca4d5fd5f8fa,
         0x27bdddbeaa4aadb0, 0x98c78e68dbf634b2, 0xf0edc57017a0d5a5,
         0x8647ea5de51eca23]
    ∧ (Krull64.next_u64 (Krull64.from_seed (List.replicate 16 0))).1
        = 0x57c1b6c1df5ed4d2 := by
  constructor
  · decide
  · decide

/-- C2: for every multiplier `m ≡ 5 (mod 8)` (in particular all published
M128/M65 constants), every odd increment, every origin and state and every
`n < 2 ^ 128`: `get_iterations` inverts `get_state`, `get_state` inverts
`get_iterations`, and the returned count is the unique one in `[0, 2^128)`. -/
theorem claim_C2 (m p origin state n : ℕ) (hm : m % 8 = 5) (hp : p % 2 = 1)
    (ho : origin < U) (hs : state < U) (hn : n < U) :
    lcg.get_iterations m p origin (lcg.get_state m p origin n) = some n
    ∧ (∃ k, lcg.get_iterations m p origin state = some k ∧ k < U
        ∧ lcg.get_state m p origin k = state
        ∧ ∀ j, j < U → lcg.get_state m p origin j = state → j = k)
    ∧ LCG_M128_1 % 8 = 5 ∧ LCG_M128_2 % 8 = 5 ∧ LCG_M128_3 % 8 = 5
    ∧ LCG_M128_4 % 8 = 5 ∧ LCG_M65_1 % 8 = 5 ∧ LCG_M65_2 % 8 = 5
    ∧ LCG_M65_3 % 8 = 5 ∧ LCG_M65_4 % 8 = 5 := by
  refine ⟨lcg.get_iterations_get_state m p origin n hm hp ho hn, ?_,
    by norm_num [LCG_M128_1], by norm_num [LCG_M128_2], by norm_num [LCG_M128_3],
    by norm_num [LCG_M128_4], by norm_num [LCG_M65_1], by norm_num [LCG_M65_2],
    by norm_num [LCG_M65_3], by norm_num [LCG_M65_4]⟩
  obtain ⟨k, hres, hk, hit⟩ := lcg.get_iterations_correct m p origin state hm hp ho hs
  refine ⟨k, hres, hk, ?_, ?_⟩
  · rw [lcg.get_state_eq_iterate m p origin k hk]
    exact hit
  · intro j hj hjs
    exact lcg.get_iterations_unique m p origin state k j hm hp ho hs hres hj hjs

theorem claim_C2_witness :
    LCG_M65_1 % 8 = 5 ∧ (1 : ℕ) % 2 = 1 ∧ (0 : ℕ) < U ∧ (1 : ℕ) < U ∧ (1 : ℕ) < U
    ∧ (lcg.get_iterations LCG_M65_1 1 0 (lcg.get_state LCG_M65_1 1 0 1) = some 1
        ∧ (∃ k, lcg.get_iterations LCG_M65_1 1 0 1 = some k ∧ k < U
            ∧ lcg.get_state LCG_M65_1 1 0 k = 1
            ∧ ∀ j, j < U → lcg.get_state LCG_M65_1 1 0 j = 1 → j = k)
        ∧ LCG_M128_1 % 8 = 5 ∧ LCG_M128_2 % 8 = 5 ∧ LCG_M128_3 % 8 = 5
        ∧ LCG_M128_4 % 8 = 5 ∧ LCG_M65_1 % 8 = 5 ∧ LCG_M65_2 % 8 = 5
        ∧ LCG_M65_3 % 8 = 5 ∧ LCG_M65_4 % 8 = 5) :=
  ⟨by decide, by decide, by decide, by decide, by decide,
    claim_C2 LCG_M65_1 1 0 1 1 (by decide) (by decide) (by decide) (by decide)
      (by decide)⟩

/-- C9: under the full-period preconditions the `get_iterations` loop
terminates within its 128 bit-levels (the embedding returns `none`
exactly when the Rust loop would still be running after 128 iterations). -/
theorem claim_C9 (m p origin state : ℕ) (hm : m % 8 = 5) (hp : p % 2 = 1)
    (ho : origin < U) (hs : state < U) :
    (lcg.get_iterations m p origin state).isSome = true := by
  obtain ⟨k, hres, _, _⟩ := lcg.get_iterations_correct m p origin state hm hp ho hs
  rw [hres]
  rfl

theorem claim_C9_witness :
    LCG_M65_1 % 8 = 5 ∧ (1 : ℕ) % 2 = 1 ∧ (0 : ℕ) < U ∧ (5 : ℕ) < U
    ∧ (lcg.get_iterations LCG_M65_1 1 0 5).isSome = true :=
  ⟨by decide, by decide, by decide, by decide,
    claim_C9 LCG_M65_1 1 0 5 (by decide) (by decide) (by decide) (by decide)⟩

/-- C3: for a 65-bit multiplier with high word 1, the optimized hot-path
advance (one widening 64×64→128 multiply plus 64-bit wrapping ops) equals
`state * m + increment mod 2 ^ 128`; hence `Krull64::step` agrees with
`step_slow`, and `Krull65::step` advances both of its LCGs the same way. -/
theorem claim_C3 (m0 inc a0 a1 : ℕ) (g64 : Krull64) (g65 : Krull65)
    (hw64 : g64.Wf) (hw65 : g65.Wf) :
    ((a0 * m0 + inc) % U % V
        + V * (((((a0 * m0 + inc) % U) >>> 64) % V + a1 * m0 + a0) % V)
      = ((a0 + V * a1) * (V + m0) + inc) % U)
    ∧ Krull64.lcg_128 (Krull64.stepState g64)
        = (Krull64.lcg_128 g64 * Krull64.multiplier_128
            + Krull64.increment_128 g64) % U
    ∧ Krull64.step g64 = Krull64.step_slow g64
    ∧ Krull65.a_128 (Krull65.stepState g65)
        = (Krull65.a_128 g65 * Krull65.multiplier_a_128
            + Krull65.increment_a_128 g65) % U
    ∧ Krull65.b_128 (Krull65.stepState g65)
        = (Krull65.b_128 g65 * Krull65.multiplier_b_128
            + Krull65.increment_b_128 g65) % U :=
  ⟨widening_mul_advance m0 inc a0 a1, Krull64.stepState_lcg g64 hw64,
    Krull64.step_eq_step_slow g64 hw64, Krull65.stepState_a g65 hw65,
    Krull65.stepState_b g65 hw65⟩

theorem claim_C3_witness :
    (Krull64.from_64 0).Wf ∧ Krull65.new.Wf
    ∧ Krull64.step (Krull64.from_64 0) = Krull64.step_slow (Krull64.from_64 0)
    ∧ Krull65.a_128 (Krull65.stepState Krull65.new)
        = (Krull65.a_128 Krull65.new * Krull65.multiplier_a_128
            + Krull65.increment_a_128 Krull65.new) % U :=
  ⟨by decide, by decide,
    (claim_C3 0 0 0 0 (Krull64.from_64 0) Krull65.new (by decide) (by decide)).2.2.1,
    (claim_C3 0 0 0 0 (Krull64.from_64 0) Krull65.new (by decide) (by decide)).2.2.2.1⟩

set_option maxRecDepth 100000 in
/-- C4 as stated is false on the code: `from_128` sets the *high* bits of
the position from the *low* seed word, i.e. `position() = (s mod 2^64) << 64`,
not `s >> 64`.  Concretely, seed `s = 1` gives position `2 ^ 64`, while
`s >> 64 = 0`. -/
theorem claim_C4_counterexample :
    Krull64.position (Krull64.from_128 1) ≠ some ((1 : ℕ) >>> 64) := by
  decide

/-- C4 (amended): constructing Generator-A from the 16-byte little-endian
seed value `s` yields `stream() = (s >> 64) XOR (s mod 2^64)` and
`position() = (s mod 2^64) * 2^64` (the low seed word shifted into the high
position bits); Generator-B from a `W128` seed `s` has `stream() = s` and
`position() = 0`; Generator-B's 24-byte path yields `stream() = s0 XOR s1`
and `position() = s1 * 2^64`. -/
theorem claim_C4_amended (s s0 s1 : ℕ) (hs : s < U) (hs0 : s0 < U) (hs1 : s1 < V) :
    (Krull64.from_128 s).stream = (s >>> 64) ^^^ (s % V)
    ∧ Krull64.position (Krull64.from_128 s) = some ((s % V) * V)
    ∧ Krull65.stream (Krull65.from_128 s) = some s
    ∧ Krull65.position (Krull65.from_128 s) = some 0
    ∧ (∃ g, Krull65.from_192 s0 s1 = some g
        ∧ Krull65.stream g = some (s0 ^^^ s1)
        ∧ Krull65.position g = some (s1 * V)) := by
  refine ⟨Krull64.from_128_stream s hs, ?_, Krull65.stream_set_stream _ s hs,
    Krull65.position_set_stream65 _ s, ?_⟩
  · have hwf : (Krull64.from_64 (((s >>> 64) ^^^ s) % V)).Wf :=
      Krull64.from_64_wf _ (Nat.mod_lt _ V_pos)
    have h := (Krull64.position_set_position _ hwf ((s <<< 64) % U)
      (Nat.mod_lt _ U_pos)).1
    nth_rewrite 2 [shl64_mod] at h
    exact h
  · have hxlt : s0 ^^^ s1 < U := by
      rw [lcg.U_def]
      exact Nat.xor_lt_two_pow (by rw [← lcg.U_def]; exact hs0)
        (by rw [← lcg.U_def]; exact lt_trans hs1 V_lt_U)
    have hwf : (Krull65.set_stream Krull65.new (s0 ^^^ s1)).Wf :=
      Krull65.set_stream_wf _ _
    have hposU : (s1 <<< 64) % U < U := Nat.mod_lt _ U_pos
    obtain ⟨g, hset, hpos, hstr, hwf', _⟩ :=
      Krull65.set_position_spec65 _ hwf ((s1 <<< 64) % U) hposU
    refine ⟨g, hset, ?_, ?_⟩
    · rw [hstr]
      exact Krull65.stream_set_stream _ _ hxlt
    · rw [hpos, shl64_mod, Nat.mod_eq_of_lt hs1]

theorem claim_C4_amended_witness :
    (2 ^ 64 + 3 : ℕ) < U ∧ (7 : ℕ) < U ∧ (3 : ℕ) < V
    ∧ ((Krull64.from_128 (2 ^ 64 + 3)).stream
          = ((2 ^ 64 + 3 : ℕ) >>> 64) ^^^ ((2 ^ 64 + 3) % V)
        ∧ Krull64.position (Krull64.from_128 (2 ^ 64 + 3))
          = some (((2 ^ 64 + 3) % V) * V)
        ∧ Krull65.stream (Krull65.from_128 (2 ^ 64 + 3)) = some (2 ^ 64 + 3)
        ∧ Krull65.position (Krull65.from_128 (2 ^ 64 + 3)) = some 0
        ∧ (∃ g, Krull65.from_192 7 3 = some g
            ∧ Krull65.stream g = some (7 ^^^ 3)
            ∧ Krull65.position g = some (3 * V))) :=
  ⟨by decide, by decide, by decide,
    claim_C4_amended (2 ^ 64 + 3) 7 3 (by decide) (by decide) (by decide)⟩

/-- C5: `set_stream(s)` yields `stream() = s` and `position() = 0` for both
generators; for Generator-B the stored `c_hi = hi XOR lo` plus re-seating B
at `lo` steps from its origin reassembles exactly `s` on read-back. -/
theorem claim_C5 (g64 : Krull64) (g65 : Krull65) (s64 s128 : ℕ)
    (_h64 : s64 < V) (h128 : s128 < U) :
    (Krull64.set_stream g64 s64).stream = s64
    ∧ Krull64.position (Krull64.set_stream g64 s64) = some 0
    ∧ Krull65.stream (Krull65.set_stream g65 s128) = some s128
    ∧ Krull65.position (Krull65.set_stream g65 s128) = some 0 :=
  ⟨rfl, Krull64.position_set_stream g64 s64,
    Krull65.stream_set_stream g65 s128 h128,
    Krull65.position_set_stream65 g65 s128⟩

theorem claim_C5_witness :
    (3 : ℕ) < V ∧ (5 : ℕ) < U
    ∧ ((Krull64.set_stream Krull64.new 3).stream = 3
        ∧ Krull64.position (Krull64.set_stream Krull64.new 3) = some 0
        ∧ Krull65.stream (Krull65.set_stream Krull65.new 5) = some 5
        ∧ Krull65.position (Krull65.set_stream Krull65.new 5) = some 0) :=
  ⟨by decide, by decide,
    claim_C5 Krull64.new Krull65.new 3 5 (by decide) (by decide)⟩

/-- C6: `jump(delta)` adds the unsigned (two's-complement) reinterpretation
of `delta` to the position modulo `2 ^ 128` and leaves the stream
unchanged, for both generators; consequently `jump(+d)` followed by
`jump(-d)` restores the `(stream, position)` pair exactly. -/
theorem claim_C6 (g64 : Krull64) (g65 : Krull65) (d : ℤ) (n64 n65 : ℕ)
    (hw64 : g64.Wf) (hw65 : g65.Wf)
    (h64 : Krull64.position g64 = some n64)
    (h65 : Krull65.position g65 = some n65) :
    Krull64.position (Krull64.jump g64 d)
        = some ((n64 + (d % (U : ℤ)).toNat) % U)
    ∧ (Krull64.jump g64 d).stream = g64.stream
    ∧ Krull64.position (Krull64.jump (Krull64.jump g64 d) (-d)) = some n64
    ∧ (Krull64.jump (Krull64.jump g64 d) (-d)).stream = g64.stream
    ∧ Krull65.position (Krull65.jump g65 d)
        = some ((n65 + (d % (U : ℤ)).toNat) % U)
    ∧ Krull65.stream (Krull65.jump g65 d) = Krull65.stream g65
    ∧ Krull65.position (Krull65.jump (Krull65.jump g65 d) (-d)) = some n65
    ∧ Krull65.stream (Krull65.jump (Krull65.jump g65 d) (-d))
        = Krull65.stream g65 := by
  have hU0 : ((U : ℕ) : ℤ) ≠ 0 := by
    exact_mod_cast Nat.pos_iff_ne_zero.mp U_pos
  have hUpos : (0 : ℤ) < (U : ℕ) := by exact_mod_cast U_pos
  have hd1 : (d % (U : ℤ)).toNat < U := by
    have h1 := Int.emod_lt_of_pos d hUpos
    have h2 := Int.emod_nonneg d hU0
    omega
  have hd2 : ((-d) % (U : ℤ)).toNat < U := by
    have h1 := Int.emod_lt_of_pos (-d) hUpos
    have h2 := Int.emod_nonneg (-d) hU0
    omega
  have hn64U : n64 < U := by
    obtain ⟨n', hn', hn'U, _⟩ := Krull64.position_spec g64 hw64
    rw [h64] at hn'
    rw [Option.some.inj hn']
    exact hn'U
  have hn65U : n65 < U := by
    obtain ⟨n', hn', hn'U, _⟩ := Krull65.position_spec65 g65 hw65
    rw [h65] at hn'
    rw [Option.some.inj hn']
    exact hn'U
  have hcancel : ∀ n : ℕ, n < U →
      ((n + (d % (U : ℤ)).toNat) % U + ((-d) % (U : ℤ)).toNat) % U = n := by
    intro n hn
    rw [Nat.mod_add_mod, Nat.add_assoc, Nat.add_mod, toNat_emod_add_neg d,
      Nat.add_zero, Nat.mod_mod, Nat.mod_eq_of_lt hn]
  obtain ⟨hp1, hs1, hw1⟩ :=
    Krull64.position_jumpU g64 hw64 n64 (d % (U : ℤ)).toNat h64 hd1
  obtain ⟨hp2, hs2, _⟩ :=
    Krull64.position_jumpU (Krull64.jumpU g64 (d % (U : ℤ)).toNat) hw1
      ((n64 + (d % (U : ℤ)).toNat) % U) ((-d) % (U : ℤ)).toNat hp1 hd2
  have hp65 := Krull65.position_jumpU65 g65 hw65 n65 (d % (U : ℤ)).toNat h65 hd1
  have hs65 := Krull65.stream_jumpU g65 hw65 (d % (U : ℤ)).toNat hd1
  have hw65' := Krull65.jumpU_wf g65 hw65 (d % (U : ℤ)).toNat
  have hp65' := Krull65.position_jumpU65 (Krull65.jumpU g65 (d % (U : ℤ)).toNat)
    hw65' ((n65 + (d % (U : ℤ)).toNat) % U) ((-d) % (U : ℤ)).toNat hp65 hd2
  have hs65' := Krull65.stream_jumpU (Krull65.jumpU g65 (d % (U : ℤ)).toNat)
    hw65' ((-d) % (U : ℤ)).toNat hd2
  refine ⟨hp1, hs1, ?_, ?_, hp65, hs65, ?_, ?_⟩
  · rw [show Krull64.position (Krull64.jump (Krull64.jump g64 d) (-d))
        = Krull64.position (Krull64.jumpU (Krull64.jumpU g64 (d % (U : ℤ)).toNat)
            ((-d) % (U : ℤ)).toNat) from rfl]
    rw [hp2, hcancel n64 hn64U]
  · rw [show (Krull64.jump (Krull64.jump g64 d) (-d)).stream
        = (Krull64.jumpU (Krull64.jumpU g64 (d % (U : ℤ)).toNat)
            ((-d) % (U : ℤ)).toNat).stream from rfl]
    rw [hs2, hs1]
  · rw [show Krull65.position (Krull65.jump (Krull65.jump g65 d) (-d))
        = Krull65.position (Krull65.jumpU (Krull65.jumpU g65 (d % (U : ℤ)).toNat)
            ((-d) % (U : ℤ)).toNat) from rfl]
    rw [hp65', hcancel n65 hn65U]
  · rw [show Krull65.stream (Krull65.jump (Krull65.jump g65 d) (-d))
        = Krull65.stream (Krull65.jumpU (Krull65.jumpU g65 (d % (U : ℤ)).toNat)
            ((-d) % (U : ℤ)).toNat) from rfl]
    rw [hs65', hs65]

theorem claim_C6_witness :
    (Krull64.from_64 0).Wf ∧ Krull65.new.Wf
    ∧ Krull64.position (Krull64.from_64 0) = some 0
    ∧ Krull65.position Krull65.new = some 0
    ∧ (Krull64.position (Krull64.jump (Krull64.from_64 0) 3)
        = some ((0 + ((3 : ℤ) % (U : ℤ)).toNat) % U)
      ∧ (Krull64.jump (Krull64.from_64 0) 3).stream = (Krull64.from_64 0).stream
      ∧ Krull64.position (Krull64.jump (Krull64.jump (Krull64.from_64 0) 3) (-3))
        = some 0
      ∧ (Krull64.jump (Krull64.jump (Krull64.from_64 0) 3) (-3)).stream
        = (Krull64.from_64 0).stream
      ∧ Krull65.position (Krull65.jump Krull65.new 3)
        = some ((0 + ((3 : ℤ) % (U : ℤ)).toNat) % U)
      ∧ Krull65.stream (Krull65.jump Krull65.new 3) = Krull65.stream Krull65.new
      ∧ Krull65.position (Krull65.jump (Krull65.jump Krull65.new 3) (-3)) = some 0
      ∧ Krull65.stream (Krull65.jump (Krull65.jump Krull65.new 3) (-3))
        = Krull65.stream Krull65.new) :=
  ⟨by decide, by decide, by decide, by decide,
    claim_C6 (Krull64.from_64 0) Krull65.new 3 0 0 (by decide) (by decide)
      (by decide) (by decide)⟩

/-- C7: `k` invocations of `next_u64` advance the position coordinate by
exactly `k` (mod `2 ^ 128`), for both generators. -/
theorem claim_C7 (g64 : Krull64) (g65 : Krull65) (p64 p65 k : ℕ)
    (hw64 : g64.Wf) (hw65 : g65.Wf)
    (h64 : Krull64.position g64 = some p64)
    (h65 : Krull65.position g65 = some p65) :
    Krull64.position ((fun h => (Krull64.next_u64 h).2)^[k] g64)
      = some ((p64 + k) % U)
    ∧ Krull65.position ((fun h => (Krull65.next_u64 h).2)^[k] g65)
      = some ((p65 + k) % U) := by
  have hp64U : p64 < U := by
    obtain ⟨n', hn', hn'U, _⟩ := Krull64.position_spec g64 hw64
    rw [h64] at hn'
    rw [Option.some.inj hn']
    exact hn'U
  have hp65U : p65 < U := by
    obtain ⟨n', hn', hn'U, _⟩ := Krull65.position_spec65 g65 hw65
    rw [h65] at hn'
    rw [Option.some.inj hn']
    exact hn'U
  have he64 : (fun h => (Krull64.next_u64 h).2) = Krull64.stepState := rfl
  have he65 : (fun h => (Krull65.next_u64 h).2) = Krull65.stepState := rfl
  rw [he64, he65]
  exact ⟨(Krull64.position_stepState_iterate g64 hw64 p64 h64 hp64U k).1,
    (Krull65.position_stepState_iterate65 g65 hw65 p65 h65 hp65U k).1⟩

theorem claim_C7_witness :
    (Krull64.from_64 0).Wf ∧ Krull65.new.Wf
    ∧ Krull64.position (Krull64.from_64 0) = some 0
    ∧ Krull65.position Krull65.new = some 0
    ∧ (Krull64.position ((fun h => (Krull64.next_u64 h).2)^[2] (Krull64.from_64 0))
        = some ((0 + 2) % U)
      ∧ Krull65.position ((fun h => (Krull65.next_u64 h).2)^[2] Krull65.new)
        = some ((0 + 2) % U)) :=
  ⟨by decide, by decide, by decide, by decide,
    claim_C7 (Krull64.from_64 0) Krull65.new 0 0 2 (by decide) (by decide)
      (by decide) (by decide)⟩

/-- C8: `fill_bytes(dst)` draws exactly `⌈len/8⌉` outputs through the same
advance as `next_u64`, serializes each little-endian, truncating the last
chunk to the remaining bytes from the low end; on a buffer of length
`8 k` it is bit-equal to concatenating the little-endian bytes of `k`
`next_u64` outputs; `try_fill_bytes` does the same and always reports
success. -/
theorem claim_C8 (g64 : Krull64) (g65 : Krull65) (len k : ℕ) :
    Krull64.fill_bytes g64 len
      = (((iterOutputs Krull64.next_u64 ((len + 7) / 8) g64).1.flatMap
            to_le_bytes).take len,
         (iterOutputs Krull64.next_u64 ((len + 7) / 8) g64).2)
    ∧ (len = 8 * k →
        (Krull64.fill_bytes g64 len).1
          = (iterOutputs Krull64.next_u64 k g64).1.flatMap to_le_bytes)
    ∧ Krull64.try_fill_bytes g64 len = (Krull64.fill_bytes g64 len, some ())
    ∧ Krull65.fill_bytes g65 len
      = (((iterOutputs Krull65.next_u64 ((len + 7) / 8) g65).1.flatMap
            to_le_bytes).take len,
         (iterOutputs Krull65.next_u64 ((len + 7) / 8) g65).2)
    ∧ (len = 8 * k →
        (Krull65.fill_bytes g65 len).1
          = (iterOutputs Krull65.next_u64 k g65).1.flatMap to_le_bytes)
    ∧ Krull65.try_fill_bytes g65 len = (Krull65.fill_bytes g65 len, some ()) := by
  have h64 := fillBytesAux_spec Krull64.step len len g64 le_rfl
  have h65 := fillBytesAux_spec Krull65.next len len g65 le_rfl
  have hq : len = 8 * k → (len + 7) / 8 = k := by omega
  refine ⟨h64, ?_, rfl, h65, ?_, rfl⟩
  · intro hlen
    have h1 : (Krull64.fill_bytes g64 len).1
        = ((iterOutputs Krull64.step ((len + 7) / 8) g64).1.flatMap
            to_le_bytes).take len := by
      rw [show Krull64.fill_bytes g64 len
          = fillBytesAux Krull64.step len g64 len from rfl, h64]
    rw [h1, hq hlen]
    apply List.take_of_length_le
    rw [flatMap_to_le_bytes_length, iterOutputs_length, hlen]
  · intro hlen
    have h1 : (Krull65.fill_bytes g65 len).1
        = ((iterOutputs Krull65.next ((len + 7) / 8) g65).1.flatMap
            to_le_bytes).take len := by
      rw [show Krull65.fill_bytes g65 len
          = fillBytesAux Krull65.next len g65 len from rfl, h65]
    rw [h1, hq hlen]
    apply List.take_of_length_le
    rw [flatMap_to_le_bytes_length, iterOutputs_length, hlen]

theorem claim_C8_witness :
    Krull64.fill_bytes Krull64.new 16
      = (((iterOutputs Krull64.next_u64 ((16 + 7) / 8) Krull64.new).1.flatMap
            to_le_bytes).take 16,
         (iterOutputs Krull64.next_u64 ((16 + 7) / 8) Krull64.new).2)
    ∧ ((16 : ℕ) = 8 * 2 →
        (Krull64.fill_bytes Krull64.new 16).1
          = (iterOutputs Krull64.next_u64 2 Krull64.new).1.flatMap to_le_bytes)
    ∧ Krull64.try_fill_bytes Krull64.new 16
        = (Krull64.fill_bytes Krull64.new 16, some ())
    ∧ Krull65.fill_bytes Krull65.new 16
      = (((iterOutputs Krull65.next_u64 ((16 + 7) / 8) Krull65.new).1.flatMap
            to_le_bytes).take 16,
         (iterOutputs Krull65.next_u64 ((16 + 7) / 8) Krull65.new).2)
    ∧ ((16 : ℕ) = 8 * 2 →
        (Krull65.fill_bytes Krull65.new 16).1
          = (iterOutputs Krull65.next_u64 2 Krull65.new).1.flatMap to_le_bytes)
    ∧ Krull65.try_fill_bytes Krull65.new 16
        = (Krull65.fill_bytes Krull65.new 16, some ()) :=
  claim_C8 Krull64.new Krull65.new 16 2

/-- C10: the stored stream-high word `c1` of Krull65 is a frame of every
operation except `set_stream`: `step` (hence `next_u64`, `next_u32`,
`fill_bytes`), `jump`, `set_position` and `reset` leave it unchanged for
every starting state and argument. -/
theorem claim_C10 (g : Krull65) (d : ℤ) (pos len : ℕ) :
    (Krull65.stepState g).c1 = g.c1
    ∧ ((Krull65.next_u64 g).2).c1 = g.c1
    ∧ ((Krull65.next_u32 g).2).c1 = g.c1
    ∧ ((Krull65.fill_bytes g len).2).c1 = g.c1
    ∧ (Krull65.jump g d).c1 = g.c1
    ∧ (∀ g', Krull65.set_position g pos = some g' → g'.c1 = g.c1)
    ∧ (Krull65.reset g).c1 = g.c1 := by
  refine ⟨rfl, rfl, rfl, ?_, rfl, ?_, rfl⟩
  · have h := fillBytesAux_spec Krull65.next len len g le_rfl
    rw [show Krull65.fill_bytes g len = fillBytesAux Krull65.next len g len from rfl, h]
    exact iterOutputs_c1 _ g
  · intro g' h
    exact Krull65.set_position_c1 g pos g' h

theorem claim_C10_witness :
    (Krull65.stepState Krull65.new).c1 = Krull65.new.c1
    ∧ ((Krull65.next_u64 Krull65.new).2).c1 = Krull65.new.c1
    ∧ ((Krull65.next_u32 Krull65.new).2).c1 = Krull65.new.c1
    ∧ ((Krull65.fill_bytes Krull65.new 3).2).c1 = Krull65.new.c1
    ∧ (Krull65.jump Krull65.new 1).c1 = Krull65.new.c1
    ∧ (∀ g', Krull65.set_position Krull65.new 0 = some g' → g'.c1 = Krull65.new.c1)
    ∧ (Krull65.reset Krull65.new).c1 = Krull65.new.c1 :=
  claim_C10 Krull65.new 1 0 3

end RandKrull
